import Mathlib

/-!
Shallow embedding of the Arabic Name Normalizer core
(`services/arabic-name-normalizer`, file `index.js`) of the NDRP backend,
together with the parallel Java implementation
(`ArabicNameNormalizer.java`) where the claims reference it.

JS strings are modelled as `List Char` (all characters involved are in the
Basic Multilingual Plane, where JS UTF-16 code units coincide with code
points).  JS `number` arithmetic on similarity scores is modelled exactly
over `ℚ` (the literals `0.1` and `0.85` become `1/10` and `17/20`).
A JS function that can throw is modelled with an `Option` result, `none`
standing for the thrown exception.
-/

namespace NDRP

/-- The Arabic diacritics (tashkeel) character class
`/[ً-ٰٟ]/` of `index.js`. -/
def isDiacritic (c : Char) : Bool :=
  (0x64B ≤ c.toNat && c.toNat ≤ 0x65F) || c.toNat == 0x670

/-- `removeDiacritics`: `text.replace(ARABIC_DIACRITICS, '')`. -/
def removeDiacritics (text : List Char) : List Char :=
  text.filter (fun c => !(isDiacritic c))

/-- The `ARABIC_NORMALIZATIONS` table as a character function.  The JS code
applies one global single-character regex replace per table entry, in key
order; since no replacement character (ا ه ي و) is itself a key of the
table, that sequence of replaces acts as a single character-wise map. -/
def normLetter (c : Char) : Char :=
  if c = 'آ' then 'ا'
  else if c = 'أ' then 'ا'
  else if c = 'إ' then 'ا'
  else if c = 'ٱ' then 'ا'
  else if c = 'ة' then 'ه'
  else if c = 'ى' then 'ي'
  else if c = 'ؤ' then 'و'
  else if c = 'ئ' then 'ي'
  else c

/-- `normalizeArabicLetters`. -/
def normalizeArabicLetters (text : List Char) : List Char :=
  text.map normLetter

/-- One step of a prefix-table scan: if the entry's key is a prefix of the
string, replace that leading substring by the entry's value
(`normalized = replacement + normalized.substring(prefix.length)`). -/
def applyEntry (s : List Char) (e : List Char × List Char) : List Char :=
  if e.1.isPrefixOf s then e.2 ++ s.drop e.1.length else s

/-- The `PREFIXES` table of `index.js`, in declaration order
(JS objects preserve string-key insertion order). -/
def PREFIXES : List (List Char × List Char) :=
  [ ("ال".toList, "".toList),
    ("عبد ال".toList, "عبدال".toList),
    ("عبدال".toList, "عبدال".toList),
    ("ابو ".toList, "ابو".toList),
    ("أبو ".toList, "ابو".toList),
    ("ابن ".toList, "ابن".toList),
    ("بن ".toList, "بن".toList),
    ("ام ".toList, "ام".toList),
    ("أم ".toList, "ام".toList) ]

/-- `normalizeArabicPrefixes`: scans every table entry in order; the loop
has no `break`, so later entries are tested against the already-rewritten
string. -/
def normalizeArabicPrefixes (text : List Char) : List Char :=
  PREFIXES.foldl applyEntry text

/-- The `ENGLISH_PREFIXES` table of `index.js`, in declaration order. -/
def ENGLISH_PREFIXES : List (List Char × List Char) :=
  [ ("al-".toList, "".toList), ("al ".toList, "".toList),
    ("el-".toList, "".toList), ("el ".toList, "".toList),
    ("abd-".toList, "abd".toList), ("abd ".toList, "abd".toList),
    ("abdel-".toList, "abdel".toList), ("abdel ".toList, "abdel".toList),
    ("abdul-".toList, "abdul".toList), ("abdul ".toList, "abdul".toList),
    ("abu-".toList, "abu".toList), ("abu ".toList, "abu".toList),
    ("ibn-".toList, "ibn".toList), ("ibn ".toList, "ibn".toList),
    ("bin-".toList, "bin".toList), ("bin ".toList, "bin".toList) ]

/-- `normalizeEnglishPrefixes`: lower-cases, then scans every table entry
in order with no `break`.  (`toLowerCase` is modelled on ASCII letters,
the only cased characters appearing in this development.) -/
def normalizeEnglishPrefixes (text : List Char) : List Char :=
  ENGLISH_PREFIXES.foldl applyEntry (text.map Char.toLower)

/-- The `ARABIC_SOUNDEX` phonetic-group table of `index.js`. -/
def soundexCode (c : Char) : Option Char :=
  if c = 'ب' ∨ c = 'ف' ∨ c = 'و' then some '1'
  else if c = 'ج' ∨ c = 'ز' ∨ c = 'س' ∨ c = 'ش' ∨
          c = 'ص' ∨ c = 'ض' ∨ c = 'ظ' then some '2'
  else if c = 'د' ∨ c = 'ذ' ∨ c = 'ت' ∨ c = 'ط' ∨
          c = 'ث' then some '3'
  else if c = 'ل' then some '4'
  else if c = 'م' ∨ c = 'ن' then some '5'
  else if c = 'ر' then some '6'
  else if c = 'ق' ∨ c = 'ك' ∨ c = 'غ' ∨ c = 'خ' then some '7'
  else if c = 'ه' ∨ c = 'ح' ∨ c = 'ع' ∨ c = 'ء' ∨
          c = 'أ' then some '8'
  else if c = 'ي' then some '9'
  else none

/-- The main loop of `arabicSoundex`: for each remaining character, while
the accumulated code is shorter than 6, append the character's phonetic
digit when it has one and it differs from `lastCode`; such appends update
`lastCode`, all other characters are skipped without touching it.
(`lastCode = none` models the JS empty string `''`.) -/
def soundexLoop : List Char → Option Char → List Char → List Char
  | [], _, acc => acc
  | c :: rest, lastCode, acc =>
    if acc.length < 6 then
      match soundexCode c with
      | some d =>
        if some d ≠ lastCode then soundexLoop rest (some d) (acc ++ [d])
        else soundexLoop rest lastCode acc
      | none => soundexLoop rest lastCode acc
    else acc

/-- `while (soundex.length < 6) soundex += '0'`. -/
def padZeros (acc : List Char) : List Char :=
  acc ++ List.replicate (6 - acc.length) '0'

/-- `arabicSoundex` of `index.js`.  On the empty string it returns `''`.
Otherwise it strips diacritics and canonicalizes letters first; if that
leaves an empty string, the JS code reads `normalized[0]` (`undefined`),
assigns it to `soundex` and then evaluates `soundex.length`, throwing a
`TypeError` — modelled by `none`. -/
def arabicSoundex (text : List Char) : Option (List Char) :=
  if text = [] then some []
  else
    match normalizeArabicLetters (removeDiacritics text) with
    | [] => none
    | first :: rest =>
      some (padZeros (soundexLoop rest (soundexCode first) [first]))

/-- The JS `\s` character class (ECMAScript WhiteSpace and
LineTerminator), used by `/\s+/g`, `/\s/g` and `trim()`. -/
def isJsWs (c : Char) : Bool :=
  let n := c.toNat
  (0x9 ≤ n && n ≤ 0xD) || n == 0x20 || n == 0xA0 || n == 0x1680 ||
  (0x2000 ≤ n && n ≤ 0x200A) || n == 0x2028 || n == 0x2029 ||
  n == 0x202F || n == 0x205F || n == 0x3000 || n == 0xFEFF

/-- `replace(/\s+/g, ' ')`: every maximal whitespace run becomes a single
space.  The flag records whether the previous character was whitespace. -/
def collapseWsAux : List Char → Bool → List Char
  | [], _ => []
  | c :: rest, prevWs =>
    if isJsWs c then
      if prevWs then collapseWsAux rest true
      else ' ' :: collapseWsAux rest true
    else c :: collapseWsAux rest false

/-- `replace(/\s+/g, ' ')`. -/
def collapseWs (l : List Char) : List Char := collapseWsAux l false

/-- `String.prototype.trim()`. -/
def trim (l : List Char) : List Char :=
  ((l.dropWhile isJsWs).reverse.dropWhile isJsWs).reverse

/-- `String.prototype.split(sep)` for a single-character separator:
`"".split(' ') = [""]`, `" ".split(' ') = ["", ""]`. -/
def splitOnChar (sep : Char) : List Char → List (List Char)
  | [] => [[]]
  | c :: rest =>
    match splitOnChar sep rest with
    | [] => [[]]
    | w :: ws => if c = sep then [] :: w :: ws else (c :: w) :: ws

/-- Result shape of `normalizeArabicName`: `parts` pairs each token with
its per-token soundex. -/
structure ArabicNormalized where
  original : List Char
  normalized : List Char
  soundex : List Char
  parts : List (List Char × List Char)
deriving DecidableEq, Repr

/-- Result shape of `normalizeEnglishName`. -/
structure EnglishNormalized where
  original : List Char
  normalized : List Char
  parts : List (List Char)
deriving DecidableEq, Repr

/-- `parts = normalized.split(' ').map(part => ({original: part, soundex:
arabicSoundex(part)}))`, threading the possible `arabicSoundex` failure. -/
def soundexParts : List (List Char) → Option (List (List Char × List Char))
  | [] => some []
  | p :: ps =>
    match arabicSoundex p, soundexParts ps with
    | some sx, some rest => some ((p, sx) :: rest)
    | _, _ => none

/-- `normalizeArabicName` of `index.js`.  Falsy (empty) input short-circuits
to the all-empty record; otherwise: strip diacritics, canonicalize letters,
normalize prefixes, collapse and trim whitespace, split into parts with
per-part soundex, and compute the whole-name soundex on the space-stripped
string (`normalized.replace(/\s/g, '')`). -/
def normalizeArabicName (name : List Char) : Option ArabicNormalized :=
  if name = [] then some ⟨[], [], [], []⟩
  else
    match soundexParts (splitOnChar ' ' (trim (collapseWs
            (normalizeArabicPrefixes (normalizeArabicLetters
              (removeDiacritics name)))))),
          arabicSoundex ((trim (collapseWs (normalizeArabicPrefixes
            (normalizeArabicLetters (removeDiacritics name))))).filter
            (fun c => !(isJsWs c))) with
    | some parts, some fullSx =>
      some ⟨name, trim (collapseWs (normalizeArabicPrefixes
        (normalizeArabicLetters (removeDiacritics name)))), fullSx, parts⟩
    | _, _ => none

/-- `part.charAt(0).toUpperCase() + part.slice(1)` (the tail is kept
verbatim; it was already lower-cased by `normalizeEnglishPrefixes`). -/
def titleWord : List Char → List Char
  | [] => []
  | c :: r => Char.toUpper c :: r

/-- `normalizeEnglishName` of `index.js`. -/
def normalizeEnglishName (name : List Char) : EnglishNormalized :=
  if name = [] then ⟨[], [], []⟩
  else
    let n2 := trim (collapseWs (normalizeEnglishPrefixes name))
    let n3 := List.intercalate [' '] ((splitOnChar ' ' n2).map titleWord)
    ⟨name, n3, splitOnChar ' ' n3⟩

/-- `/[؀-ۿ]/.test(name)`: the script detector. -/
def containsArabic (text : List Char) : Bool :=
  text.any (fun c => 0x600 ≤ c.toNat && c.toNat ≤ 0x6FF)

/-- The script-dispatched normalization of the `/soundex/:name` endpoint:
Arabic branch when any character lies in the Arabic block, else the
English branch; this projects the `normalized` field. -/
def dispatchNormalized (s : List Char) : Option (List Char) :=
  if containsArabic s then (normalizeArabicName s).map (fun r => r.normalized)
  else some (normalizeEnglishName s).normalized

/-! ### Jaro-Winkler (`jaroWinkler` of `index.js`) -/

/-- Membership of column `j` in row `i`'s match window
(`start = Math.max(0, i - matchWindow)`,
`end = Math.min(len2, i + matchWindow + 1)`); the bounds `0 ≤ j < len2`
are enforced by scanning `j` over `List.range len2`. -/
def inWindow (w : ℤ) (i j : ℕ) : Bool :=
  decide ((i : ℤ) - w ≤ (j : ℤ)) && decide ((j : ℤ) < (i : ℤ) + w + 1)

/-- The inner loop of the match finder: the first `j` in the window with
`!s2Matches[j] && s1[i] === s2[j]`. -/
def findJ (s2 : List Char) (s2M : List Bool) (w : ℤ) (c : Char) (i : ℕ) :
    Option ℕ :=
  (List.range s2.length).find?
    (fun j => inWindow w i j && !(s2M.getD j true) && (s2.get? j == some c))

/-- The outer match-finding loop: walks the first string's characters in
order with their indices, marking matched columns in `s2M`.  Each produced
triple `(i, j, c)` records a match of `s1[i]` with `s2[j]` (so
`s1Matches`/`s2Matches` of the JS code are respectively the first and
second projections, and `matches` is the length). -/
def scanAux (s2 : List Char) (w : ℤ) :
    List Char → ℕ → List Bool → List (ℕ × ℕ × Char)
  | [], _, _ => []
  | c :: rest, i, s2M =>
    match findJ s2 s2M w c i with
    | some j => (i, j, c) :: scanAux s2 w rest (i + 1) (s2M.set j true)
    | none => scanAux s2 w rest (i + 1) s2M

/-- The match-finding phase, started with all of `s2Matches` false. -/
def scan (s1 s2 : List Char) (w : ℤ) : List (ℕ × ℕ × Char) :=
  scanAux s2 w s1 0 (List.replicate s2.length false)

/-- The characters of `s1` at matched positions, in index order (the JS
transposition loop reads them by walking `s1Matches`). -/
def matchedLeft (P : List (ℕ × ℕ × Char)) : List Char :=
  P.map (fun x => x.2.2)

/-- The characters of `s2` at matched positions, in index order (the JS
transposition loop reads them by advancing `k` over `s2Matches`). -/
def matchedRight (s2 : List Char) (P : List (ℕ × ℕ × Char)) : List Char :=
  (List.range s2.length).filterMap
    (fun j => if P.any (fun x => x.2.1 == j) then s2.get? j else none)

/-- The transposition count: the JS loop pairs the n-th matched character
of `s1` with the n-th matched character of `s2` and counts the positions
where they differ. -/
def hamming : List Char → List Char → ℕ
  | a :: as, b :: bs => (if a = b then 0 else 1) + hamming as bs
  | _, _ => 0

/-- The common-prefix counter of the Winkler bonus (the JS loop already
caps the scan at `Math.min(4, len1, len2)`; the cap is applied here by
`take 4` at the call site). -/
def commonPrefixLen : List Char → List Char → ℕ
  | a :: as, b :: bs => if a = b then commonPrefixLen as bs + 1 else 0
  | _, _ => 0

/-- `matchWindow = Math.floor(Math.max(len1, len2) / 2) - 1` (a signed
quantity: it is `-1` when both strings have length 1). -/
def matchWindow (len1 len2 : ℕ) : ℤ :=
  ((max len1 len2 / 2 : ℕ) : ℤ) - 1

/-- `jaroWinkler` of `index.js`, over exact rational arithmetic. -/
def jaroWinkler (s1 s2 : List Char) : ℚ :=
  if s1 = s2 then 1
  else if s1 = [] ∨ s2 = [] then 0
  else
    let len1 := s1.length
    let len2 := s2.length
    let P := scan s1 s2 (matchWindow len1 len2)
    let m := P.length
    if m = 0 then 0
    else
      let t := hamming (matchedLeft P) (matchedRight s2 P)
      let jaro : ℚ :=
        ((m : ℚ) / len1 + (m : ℚ) / len2 + ((m : ℚ) - (t : ℚ) / 2) / m) / 3
      let p := commonPrefixLen (s1.take 4) (s2.take 4)
      jaro + (p : ℚ) * (1 / 10) * (1 - jaro)

/-- Response shape of the `/compare` endpoint. -/
structure CompareResult where
  name1 : ArabicNormalized
  name2 : ArabicNormalized
  soundexMatch : Bool
  similarity : ℚ
  matchScore : ℚ
deriving DecidableEq, Repr

/-- `Math.max` on two scores, written as an executable `if` (it is shown
below to coincide with `max`) so that concrete scores reduce. -/
def jsMax (a b : ℚ) : ℚ := if a ≤ b then b else a

/-- The `/compare` endpoint of `index.js`: both names are normalized with
`normalizeArabicName` (there is no script dispatch), the phonetic flag is
whole-name soundex equality, and the final score is floored at `0.85`
exactly when that flag is set. -/
def compareNames (n1 n2 : List Char) : Option CompareResult :=
  match normalizeArabicName n1, normalizeArabicName n2 with
  | some a, some b =>
    let sm := a.soundex == b.soundex
    let sim := jaroWinkler a.normalized b.normalized
    some ⟨a, b, sm, sim, if sm then jsMax sim (17 / 20) else sim⟩
  | _, _ => none

/-- The alternative prefix-scan semantics named by the spec's open question
(§9): stop at the first matching table entry (this is what the Java
twin's `break` does).  Used to show the JS scanners do *not* implement it. -/
def applyFirstEntry : List Char → List (List Char × List Char) → List Char
  | s, [] => s
  | s, e :: rest =>
    if e.1.isPrefixOf s then e.2 ++ s.drop e.1.length
    else applyFirstEntry s rest

/-! ### Infrastructure for the symmetry proof of `jaroWinkler`

The match-finding scan treats different characters independently: a left
position holding `c` only ever competes with other left positions holding
`c` for right positions holding `c`.  The scan is therefore decomposed
into per-character "class greedies", each of which is shown equal to a
manifestly symmetric two-pointer sweep. -/

/-- The positions (starting at offset `i`) of the occurrences of `c`. -/
def posOf (c : Char) : List Char → ℕ → List ℕ
  | [], _ => []
  | d :: rest, i =>
    if d = c then i :: posOf c rest (i + 1) else posOf c rest (i + 1)

/-- The still-unmatched positions of `c` in `s2`, in ascending order. -/
def freeQs (s2 : List Char) (s2M : List Bool) (c : Char) : List ℕ :=
  (List.range s2.length).filter
    (fun j => (s2.get? j == some c) && !(s2M.getD j true))

/-- The scan restricted to one character class: each left position takes
the smallest still-free right position inside its window. -/
def classGreedy (w : ℤ) : List ℕ → List ℕ → List (ℕ × ℕ)
  | [], _ => []
  | p :: ps, qs =>
    match qs.find? (fun q => inWindow w p q) with
    | some q => (p, q) :: classGreedy w ps (qs.erase q)
    | none => classGreedy w ps qs

/-- A two-pointer sweep over two ascending position lists: heads within
the window are matched, otherwise the head that is too far behind the
other is discarded.  Symmetric by construction. -/
def twoPointer (w : ℤ) : List ℕ → List ℕ → List (ℕ × ℕ)
  | [], _ => []
  | _ :: _, [] => []
  | p :: ps, q :: qs =>
    if inWindow w p q then (p, q) :: twoPointer w ps qs
    else if (p : ℤ) + w < (q : ℤ) then twoPointer w ps (q :: qs)
    else twoPointer w (p :: ps) qs
termination_by l1 l2 => l1.length + l2.length

end NDRP

namespace Java

/-!
Embedding of the parallel Java implementation
(`ArabicNameNormalizer.java`).  Its diacritics pattern, letter table and
phonetic-group table are identical to the JS ones, so `removeDiacritics`,
`normalizeArabicLetters` and the soundex building blocks are reused.
`HashMap` iteration order is unspecified, but at most one key of either
prefix table can match a given string (no key is a prefix of another), so
the `break`-style scan is order-independent; it is modelled by
`applyFirstEntry` over the tables in declaration order. -/

open NDRP

/-- The Java `ARABIC_PREFIXES` table (only three entries). -/
def ARABIC_PREFIXES : List (List Char × List Char) :=
  [ ("ال".toList, "".toList),
    ("عبد ال".toList, "عبدال".toList),
    ("عبدال".toList, "عبدال".toList) ]

/-- The Java `ENGLISH_PREFIXES` table (no `ibn`/`bin` entries). -/
def ENGLISH_PREFIXES : List (List Char × List Char) :=
  [ ("al-".toList, "".toList), ("al ".toList, "".toList),
    ("el-".toList, "".toList), ("el ".toList, "".toList),
    ("abd-".toList, "abd".toList), ("abd ".toList, "abd".toList),
    ("abdel-".toList, "abdel".toList), ("abdel ".toList, "abdel".toList),
    ("abdul-".toList, "abdul".toList), ("abdul ".toList, "abdul".toList),
    ("abu-".toList, "abu".toList), ("abu ".toList, "abu".toList) ]

/-- Java `normalizeArabicPrefixes` (first match wins, then `break`). -/
def normalizeArabicPrefixes (text : List Char) : List Char :=
  applyFirstEntry text ARABIC_PREFIXES

/-- Java `normalizeEnglishPrefixes` (lower-case, first match wins). -/
def normalizeEnglishPrefixes (text : List Char) : List Char :=
  applyFirstEntry (text.map Char.toLower) ENGLISH_PREFIXES

/-- The Java regex `\s` class: `[ \t\n\x0B\f\r]`. -/
def isJavaWs (c : Char) : Bool :=
  (0x9 ≤ c.toNat && c.toNat ≤ 0xD) || c.toNat == 0x20

/-- `replaceAll("\\s+", " ")` with the Java `\s` class. -/
def collapseWsAux : List Char → Bool → List Char
  | [], _ => []
  | c :: rest, prevWs =>
    if isJavaWs c then
      if prevWs then collapseWsAux rest true
      else ' ' :: collapseWsAux rest true
    else c :: collapseWsAux rest false

/-- `replaceAll("\\s+", " ")`. -/
def collapseWs (l : List Char) : List Char := collapseWsAux l false

/-- Java `String.trim()`: strips characters with code ≤ U+0020 from both
ends. -/
def trim (l : List Char) : List Char :=
  ((l.dropWhile (fun c => c.toNat ≤ 0x20)).reverse.dropWhile
    (fun c => c.toNat ≤ 0x20)).reverse

/-- Java `split(" ")`: trailing empty strings are removed, except that
splitting the empty string yields `[""]`. -/
def javaSplitSpace (s : List Char) : List (List Char) :=
  if s = [] then [[]]
  else ((NDRP.splitOnChar ' ' s).reverse.dropWhile (fun w => w = [])).reverse

/-- `Character.toUpperCase(word.charAt(0)) + word.substring(1).toLowerCase()`
(ASCII model of the Java case mappings). -/
def javaTitleWord : List Char → List Char
  | [] => []
  | c :: r => Char.toUpper c :: r.map Char.toLower

/-- The Java result bean; `soundex` stays `none` (Java `null`) on the
English path. -/
structure NormalizedName where
  original : List Char
  normalized : List Char
  soundex : Option (List Char)
  parts : List (List Char)
deriving DecidableEq, Repr

/-- Java `arabicSoundex`: identical normalization, first-letter seed,
group-digit loop and zero padding; `normalized.charAt(0)` on the empty
string throws `StringIndexOutOfBoundsException`, modelled by `none`. -/
def arabicSoundex (text : List Char) : Option (List Char) :=
  NDRP.arabicSoundex text

/-- Java `normalizeArabicName`: same pipeline, but `parts` are plain
tokens (no per-token soundex) obtained by `split(" ")`, and the
whole-name soundex strips only the literal `" "` (`replace(" ", "")`). -/
def normalizeArabicName (name : List Char) : Option NormalizedName :=
  if name = [] then some ⟨name, [], some [], []⟩
  else
    let n := trim (collapseWs (normalizeArabicPrefixes
      (normalizeArabicLetters (removeDiacritics name))))
    match arabicSoundex (n.filter (fun c => !(c == ' '))) with
    | some fullSx => some ⟨name, n, some fullSx, javaSplitSpace n⟩
    | none => none

/-- Java `normalizeEnglishName`: prefix-normalize, collapse and trim
whitespace, then title-case each word (the Java loop appends `" "` between
iterations and skips empty words, which coincides with interspersing
single spaces between title-cased words, empty words mapping to empty). -/
def normalizeEnglishName (name : List Char) : NormalizedName :=
  if name = [] then ⟨name, [], none, []⟩
  else
    let n := trim (collapseWs (normalizeEnglishPrefixes name))
    let capitalized :=
      List.intercalate [' '] ((javaSplitSpace n).map javaTitleWord)
    ⟨name, capitalized, none, javaSplitSpace capitalized⟩

/-- Java `isArabic`: `text.matches(".*[؀-ۿ].*")`. -/
def isArabic (text : List Char) : Bool :=
  NDRP.containsArabic text

/-- Java `matchWindow = Math.max(0, Math.max(len1, len2) / 2 - 1)`
(clamped at 0, unlike the JS version). -/
def matchWindow (len1 len2 : ℕ) : ℤ :=
  max 0 (((max len1 len2 / 2 : ℕ) : ℤ) - 1)

/-- Java `jaroWinkler`: identical loops to the JS version, with the
clamped window. -/
def jaroWinkler (s1 s2 : List Char) : ℚ :=
  if s1 = s2 then 1
  else if s1 = [] ∨ s2 = [] then 0
  else
    let len1 := s1.length
    let len2 := s2.length
    let P := NDRP.scan s1 s2 (matchWindow len1 len2)
    let m := P.length
    if m = 0 then 0
    else
      let t := hamming (matchedLeft P) (matchedRight s2 P)
      let jaro : ℚ :=
        ((m : ℚ) / len1 + (m : ℚ) / len2 + ((m : ℚ) - (t : ℚ) / 2) / m) / 3
      let p := commonPrefixLen (s1.take 4) (s2.take 4)
      jaro + (p : ℚ) * (1 / 10) * (1 - jaro)

/-- Java `calculateNameSimilarity`: the script-dispatched match decision.
Both Arabic: soundex-equality floor at 0.85; both Latin: plain
Jaro-Winkler of the English normalizations; mixed: plain Jaro-Winkler of
the per-script normalizations. -/
def calculateNameSimilarity (n1 n2 : List Char) : Option ℚ :=
  if isArabic n1 && isArabic n2 then
    match normalizeArabicName n1, normalizeArabicName n2 with
    | some a, some b =>
      let sm := a.soundex == b.soundex
      let jw := jaroWinkler a.normalized b.normalized
      some (if sm then NDRP.jsMax jw (17 / 20) else jw)
    | _, _ => none
  else if !(isArabic n1) && !(isArabic n2) then
    some (jaroWinkler (normalizeEnglishName n1).normalized
      (normalizeEnglishName n2).normalized)
  else
    match (if isArabic n1 then (normalizeArabicName n1).map
             (fun r => r.normalized)
           else some (normalizeEnglishName n1).normalized),
          (if isArabic n2 then (normalizeArabicName n2).map
             (fun r => r.normalized)
           else some (normalizeEnglishName n2).normalized) with
    | some x, some y => some (jaroWinkler x y)
    | _, _ => none

end Java

open NDRP

/-! ## Theorems -/

theorem jsMax_eq_max (a b : ℚ) : jsMax a b = max a b := by
  rw [jsMax, max_def]

theorem soundexLoop_length_le (l : List Char) (lc : Option Char)
    (acc : List Char) (h : acc.length ≤ 6) :
    (soundexLoop l lc acc).length ≤ 6 := by
  induction l generalizing lc acc with
  | nil => simpa [soundexLoop] using h
  | cons c rest ih =>
    by_cases hlen : acc.length < 6
    · simp only [soundexLoop, if_pos hlen]
      cases hc : soundexCode c with
      | none => exact ih lc acc h
      | some d =>
        show (if some d ≠ lc then soundexLoop rest (some d) (acc ++ [d])
              else soundexLoop rest lc acc).length ≤ 6
        by_cases hd : some d ≠ lc
        · rw [if_pos hd]
          exact ih _ _ (by simp; omega)
        · rw [if_neg hd]
          exact ih _ _ h
    · simp only [soundexLoop, if_neg hlen]
      exact h

theorem padZeros_length (acc : List Char) (h : acc.length ≤ 6) :
    (padZeros acc).length = 6 := by
  simp [padZeros]
  omega

theorem arabicSoundex_length (l r : List Char)
    (h : arabicSoundex l = some r) : r = [] ∨ r.length = 6 := by
  unfold arabicSoundex at h
  split_ifs at h with h0
  · left
    exact (Option.some.inj h).symm
  · cases hn : normalizeArabicLetters (removeDiacritics l) with
    | nil => rw [hn] at h; simp at h
    | cons first rest =>
      rw [hn] at h
      right
      rw [← Option.some.inj h]
      exact padZeros_length _ (soundexLoop_length_le _ _ _ (by simp))

/-- C1: the claim says every core operation is total on strings, and in
particular that `arabicSoundex` returns a string even when a non-empty
input becomes empty after diacritic removal.  The code contradicts this:
on the one-character input U+064B (a bare fathatan), `removeDiacritics`
yields the empty string, the JS code assigns `normalized[0]`
(`undefined`) to `soundex` and then evaluates `soundex.length`, throwing
a `TypeError` (the Java twin throws `StringIndexOutOfBoundsException`);
the failure is modelled by `none`. -/
theorem claim_C1 :
    "ً".toList ≠ [] ∧ removeDiacritics "ً".toList = [] ∧
    arabicSoundex "ً".toList = none := by decide

/-- C5: the phonetic encoder does return codes of length exactly 6
whenever it returns at all (and the empty string on empty input), but it
fails — rather than returning a 6-character code — on a non-empty input
consisting only of diacritics, refuting "for every string input". -/
theorem claim_C5 :
    (∀ l r, arabicSoundex l = some r → r = [] ∨ r.length = 6) ∧
    arabicSoundex "ٌ".toList = none :=
  ⟨arabicSoundex_length, by decide⟩

theorem claim_C5_witness :
    arabicSoundex "محمد".toList = some "م85300".toList ∧
    ("م85300".toList = [] ∨ ("م85300".toList).length = 6) :=
  ⟨by decide, claim_C5.1 "محمد".toList "م85300".toList (by decide)⟩

/-- C9: both prefix scanners test every table entry in declaration order
against the already-rewritten string instead of stopping at the first
match: on lower-cased `"al-abdel-x"` the `al-` entry fires and then the
`abdel-` entry fires on the rewritten string, giving `"abdelx"`, whereas
the stop-at-first-match semantics would give `"abdel-x"`; the Arabic
scanner likewise rewrites `"عبد الكريم"` with the `عبد ال` entry and then
re-tests the remaining entries on the rewritten string. -/
theorem claim_C9 :
    normalizeEnglishPrefixes "Al-Abdel-X".toList = "abdelx".toList ∧
    applyFirstEntry ("Al-Abdel-X".toList.map Char.toLower)
      ENGLISH_PREFIXES = "abdel-x".toList ∧
    normalizeArabicPrefixes "عبد الكريم".toList = "عبدالكريم".toList := by
  decide

/-- C2 counterexample: `"John"` and `"Jane"` are both Latin, yet the
`/compare` endpoint reports `matchScore = 0.85` — the phonetic floor is
applied (both Arabic-branch soundex codes are `"J00000"`) — while the
Jaro-Winkler score of the Latin-branch normalizations is `0.7`. -/
theorem jaroWinkler_John_Jane :
    jaroWinkler "John".toList "Jane".toList = 7 / 10 := by
  simp only [jaroWinkler]
  rw [if_neg (by decide), if_neg (by decide)]
  rw [show scan "John".toList "Jane".toList
        (matchWindow "John".toList.length "Jane".toList.length)
        = [(0, 0, 'J'), (3, 2, 'n')] from by decide]
  rw [if_neg (by decide)]
  rw [show matchedLeft [(0, 0, 'J'), (3, 2, 'n')] = ['J', 'n'] from by decide]
  rw [show matchedRight "Jane".toList [(0, 0, 'J'), (3, 2, 'n')] = ['J', 'n']
        from by decide]
  rw [show hamming ['J', 'n'] ['J', 'n'] = 0 from by decide]
  rw [show commonPrefixLen ("John".toList.take 4) ("Jane".toList.take 4) = 1
        from by decide]
  rw [show "John".toList.length = 4 from by decide,
    show "Jane".toList.length = 4 from by decide]
  norm_num

/-- C2 counterexample: `"John"` and `"Jane"` are both Latin, yet the
`/compare` endpoint reports `matchScore = 0.85` — the phonetic floor is
applied (both Arabic-branch soundex codes are `"J00000"`) — while the
Jaro-Winkler score of the Latin-branch normalizations is `0.7`. -/
theorem claim_C2_counterexample :
    containsArabic "John".toList = false ∧
    containsArabic "Jane".toList = false ∧
    (compareNames "John".toList "Jane".toList).map CompareResult.matchScore
      = some (17 / 20) ∧
    jaroWinkler (normalizeEnglishName "John".toList).normalized
      (normalizeEnglishName "Jane".toList).normalized = 7 / 10 ∧
    (17 : ℚ) / 20 ≠ 7 / 10 := by
  have hA : normalizeArabicName "John".toList = some ⟨"John".toList,
      "John".toList, "J00000".toList, [("John".toList, "J00000".toList)]⟩ :=
    by decide
  have hB : normalizeArabicName "Jane".toList = some ⟨"Jane".toList,
      "Jane".toList, "J00000".toList, [("Jane".toList, "J00000".toList)]⟩ :=
    by decide
  refine ⟨by decide, by decide, ?_, ?_, by norm_num⟩
  · simp only [compareNames, hA, hB, Option.map_some']
    rw [show ("J00000".toList == "J00000".toList) = true from by decide]
    simp only [if_true]
    rw [jaroWinkler_John_Jane, jsMax]
    norm_num
  · rw [show (normalizeEnglishName "John".toList).normalized = "John".toList
        from by decide,
      show (normalizeEnglishName "Jane".toList).normalized = "Jane".toList
        from by decide]
    exact jaroWinkler_John_Jane

/-- C2 amended: the stated property holds of the Java match decision
`calculateNameSimilarity` — for two non-Arabic names the result is the
Jaro-Winkler score of the English-branch normalizations, with no phonetic
floor — while the JS `/compare` endpoint normalizes both names with the
Arabic branch and floors whenever the soundex codes coincide. -/
theorem claim_C2 (a b : List Char)
    (h1 : Java.isArabic a = false) (h2 : Java.isArabic b = false) :
    Java.calculateNameSimilarity a b =
      some (Java.jaroWinkler (Java.normalizeEnglishName a).normalized
        (Java.normalizeEnglishName b).normalized) := by
  simp [Java.calculateNameSimilarity, h1, h2]

theorem claim_C2_witness :
    Java.calculateNameSimilarity "John".toList "Jane".toList =
      some (Java.jaroWinkler
        (Java.normalizeEnglishName "John".toList).normalized
        (Java.normalizeEnglishName "Jane".toList).normalized) :=
  claim_C2 _ _ (by decide) (by decide)

/-- C3 counterexample: the pair `("aً", "a")` is mixed-script (only the
first contains an Arabic-block codepoint, the combining fathatan), yet
the `/compare` endpoint reports `soundexMatch = true`: both names
normalize to `"a"` with soundex `"a00000"`. -/
theorem claim_C3_counterexample :
    containsArabic "aً".toList = true ∧
    containsArabic "a".toList = false ∧
    (compareNames "aً".toList "a".toList).map CompareResult.soundexMatch
      = some true := by decide

/-- C3 amended: the phonetic flag of the `/compare` endpoint is the
equality of the whole-name soundex codes produced by the Arabic-branch
normalization of both inputs, regardless of script; in particular it can
be true for a mixed-script pair (see the counterexample). -/
theorem claim_C3 (n1 n2 : List Char) (a b : ArabicNormalized)
    (h1 : normalizeArabicName n1 = some a)
    (h2 : normalizeArabicName n2 = some b) :
    (compareNames n1 n2).map CompareResult.soundexMatch =
      some (a.soundex == b.soundex) := by
  simp [compareNames, h1, h2]

theorem claim_C3_witness :
    (compareNames "aً".toList "a".toList).map CompareResult.soundexMatch =
      some ((⟨"aً".toList, "a".toList, "a00000".toList,
          [("a".toList, "a00000".toList)]⟩ : ArabicNormalized).soundex ==
        (⟨"a".toList, "a".toList, "a00000".toList,
          [("a".toList, "a00000".toList)]⟩ : ArabicNormalized).soundex) :=
  claim_C3 _ _ _ _ (by decide) (by decide)

/-- C4: for two names both containing Arabic-block codepoints, the
`/compare` endpoint computes both whole-name soundex codes, reports their
equality as the phonetic flag, and returns
`max(JaroWinkler(normalized1, normalized2), 0.85)` when they are equal
and the bare Jaro-Winkler score otherwise. -/
theorem claim_C4 (n1 n2 : List Char) (a b : ArabicNormalized)
    (_hA : containsArabic n1 = true) (_hB : containsArabic n2 = true)
    (h1 : normalizeArabicName n1 = some a)
    (h2 : normalizeArabicName n2 = some b) :
    compareNames n1 n2 = some ⟨a, b, a.soundex == b.soundex,
      jaroWinkler a.normalized b.normalized,
      if a.soundex == b.soundex
      then max (jaroWinkler a.normalized b.normalized) (17 / 20)
      else jaroWinkler a.normalized b.normalized⟩ := by
  simp [compareNames, h1, h2, jsMax_eq_max]

theorem isJsWs_arith (c : Char) (h : isJsWs c = true) :
    (9 ≤ c.toNat ∧ c.toNat ≤ 13) ∨ c.toNat = 32 ∨ c.toNat = 0xA0 ∨
    c.toNat = 0x1680 ∨ (0x2000 ≤ c.toNat ∧ c.toNat ≤ 0x200A) ∨
    c.toNat = 0x2028 ∨ c.toNat = 0x2029 ∨ c.toNat = 0x202F ∨
    c.toNat = 0x205F ∨ c.toNat = 0x3000 ∨ c.toNat = 0xFEFF := by
  simp only [isJsWs, Bool.or_eq_true, Bool.and_eq_true, decide_eq_true_eq,
    beq_iff_eq] at h
  tauto

theorem ws_not_diacritic (c : Char) (h : isJsWs c = true) :
    isDiacritic c = false := by
  have ha := isJsWs_arith c h
  rw [← Bool.not_eq_true]
  intro ht
  simp only [isDiacritic, Bool.or_eq_true, Bool.and_eq_true,
    decide_eq_true_eq, beq_iff_eq] at ht
  rcases ht with ⟨t1, t2⟩ | t1 <;>
    rcases ha with ⟨h1, h2⟩ | h1 | h1 | h1 | ⟨h1, h2⟩ | h1 | h1 | h1 | h1 |
      h1 | h1 <;> omega

theorem normLetter_ws (c : Char) (h : isJsWs c = true) : normLetter c = c := by
  have ha := isJsWs_arith c h
  rw [normLetter]
  split_ifs with h1 h2 h3 h4 h5 h6 h7 h8 <;>
    first
    | rfl
    | (subst_vars; exact absurd ha (by decide))

theorem toLower_ws (c : Char) (h : isJsWs c = true) : c.toLower = c := by
  have ha := isJsWs_arith c h
  rw [Char.toLower]
  rw [if_neg]
  rcases ha with ⟨h1, h2⟩ | h1 | h1 | h1 | ⟨h1, h2⟩ | h1 | h1 | h1 | h1 |
    h1 | h1 <;> omega

theorem removeDiacritics_ws (l : List Char)
    (h : ∀ c ∈ l, isJsWs c = true) : removeDiacritics l = l := by
  rw [removeDiacritics]
  apply List.filter_eq_self.mpr
  intro a ha
  simp [ws_not_diacritic a (h a ha)]

theorem normalizeArabicLetters_ws (l : List Char)
    (h : ∀ c ∈ l, isJsWs c = true) : normalizeArabicLetters l = l := by
  induction l with
  | nil => rfl
  | cons c l' ih =>
    show normLetter c :: List.map normLetter l' = c :: l'
    rw [normLetter_ws c (h c (by simp))]
    have := ih (fun x hx => h x (by simp [hx]))
    rw [normalizeArabicLetters] at this
    rw [this]

theorem map_toLower_ws (l : List Char)
    (h : ∀ c ∈ l, isJsWs c = true) : l.map Char.toLower = l := by
  induction l with
  | nil => rfl
  | cons c l' ih =>
    rw [List.map_cons, toLower_ws c (h c (by simp)),
      ih (fun x hx => h x (by simp [hx]))]

theorem isPrefixOf_ws_false (k s : List Char)
    (hk : k.head?.elim false (fun k0 => !(isJsWs k0)) = true)
    (hs : s.head?.elim false isJsWs = true) :
    k.isPrefixOf s = false := by
  cases k with
  | nil => simp at hk
  | cons k0 ks =>
    cases s with
    | nil => simp at hs
    | cons c s' =>
      simp only [List.head?, Option.elim] at hk hs
      have hne : (k0 == c) = false := by
        rw [← Bool.not_eq_true]
        intro ht
        rw [beq_iff_eq] at ht
        rw [ht, hs] at hk
        simp at hk
      simp [List.isPrefixOf, hne]

theorem applyEntry_ws (s : List Char) (e : List Char × List Char)
    (hk : e.1.head?.elim false (fun k0 => !(isJsWs k0)) = true)
    (hs : s.head?.elim false isJsWs = true) :
    applyEntry s e = s := by
  simp [applyEntry, isPrefixOf_ws_false e.1 s hk hs]

theorem foldl_applyEntry_id (L : List (List Char × List Char))
    (s : List Char) (h : ∀ e ∈ L, applyEntry s e = s) :
    L.foldl applyEntry s = s := by
  induction L with
  | nil => rfl
  | cons e L' ih =>
    rw [List.foldl_cons, h e (by simp)]
    exact ih (fun e' he' => h e' (by simp [he']))

theorem collapseWsAux_ws_true (l : List Char)
    (h : ∀ c ∈ l, isJsWs c = true) : collapseWsAux l true = [] := by
  induction l with
  | nil => rfl
  | cons c l' ih =>
    rw [collapseWsAux, if_pos (by rw [h c (by simp)]), if_pos rfl]
    exact ih (fun x hx => h x (by simp [hx]))

theorem collapseWs_ws (c : Char) (l' : List Char) (hc : isJsWs c = true)
    (h : ∀ x ∈ l', isJsWs x = true) : collapseWs (c :: l') = [' '] := by
  rw [collapseWs, collapseWsAux, if_pos (by rw [hc]), if_neg (by simp)]
  rw [collapseWsAux_ws_true l' h]

/-- C10: a non-empty, all-whitespace input is not covered by the
all-empty-parts guarantee: the Arabic branch returns `normalized = ""` yet
a one-element `parts` list pairing the empty token with the empty
phonetic code, and the English branch returns `normalized = ""` with
`parts = [""]`. -/
theorem claim_C10 (l : List Char) (hne : l ≠ [])
    (hws : ∀ c ∈ l, isJsWs c = true) :
    normalizeArabicName l = some ⟨l, [], [], [([], [])]⟩ ∧
    normalizeEnglishName l = ⟨l, [], [[]]⟩ := by
  obtain ⟨c, l', rfl⟩ := List.exists_cons_of_ne_nil hne
  have hc : isJsWs c = true := hws c (by simp)
  have hl' : ∀ x ∈ l', isJsWs x = true := fun x hx => hws x (by simp [hx])
  have hcoll : collapseWs (c :: l') = [' '] := collapseWs_ws c l' hc hl'
  have hhead : ((c :: l').head?.elim false isJsWs : Bool) = true := by
    simp [hc]
  have hkeys : ∀ e ∈ PREFIXES,
      e.1.head?.elim false (fun k0 => !(isJsWs k0)) = true := by decide
  have hekeys : ∀ e ∈ ENGLISH_PREFIXES,
      e.1.head?.elim false (fun k0 => !(isJsWs k0)) = true := by decide
  constructor
  · unfold normalizeArabicName
    rw [if_neg (by simp)]
    rw [removeDiacritics_ws _ hws, normalizeArabicLetters_ws _ hws]
    rw [show normalizeArabicPrefixes (c :: l') = c :: l' from
      foldl_applyEntry_id _ _
        (fun e he => applyEntry_ws _ e (hkeys e he) hhead)]
    rw [hcoll]
    rfl
  · unfold normalizeEnglishName
    rw [if_neg (by simp)]
    unfold normalizeEnglishPrefixes
    rw [map_toLower_ws _ hws]
    rw [foldl_applyEntry_id _ _
      (fun e he => applyEntry_ws _ e (hekeys e he) hhead)]
    rw [hcoll]
    rfl

theorem claim_C10_witness :
    normalizeArabicName [' '] = some ⟨[' '], [], [], [([], [])]⟩ ∧
    normalizeEnglishName [' '] = ⟨[' '], [], [[]]⟩ :=
  claim_C10 [' '] (by decide) (by decide)

theorem char_toNat_ofNat (n : ℕ) (h : n < 0xd800) :
    (Char.ofNat n).toNat = n := by
  rw [Char.ofNat, dif_pos (Or.inl h)]
  rfl

theorem toUpper_not_diacritic (c : Char) (h : isDiacritic c = false) :
    isDiacritic (Char.toUpper c) = false := by
  rw [Char.toUpper]
  split_ifs with h1
  · rw [← Bool.not_eq_true]
    intro ht
    simp only [isDiacritic, Bool.or_eq_true, Bool.and_eq_true,
      decide_eq_true_eq, beq_iff_eq] at ht
    rw [char_toNat_ofNat _ (by omega)] at ht
    rcases ht with ⟨t1, t2⟩ | t1 <;> omega
  · exact h

theorem toLower_not_diacritic (c : Char) (h : isDiacritic c = false) :
    isDiacritic (Char.toLower c) = false := by
  rw [Char.toLower]
  split_ifs with h1
  · rw [← Bool.not_eq_true]
    intro ht
    simp only [isDiacritic, Bool.or_eq_true, Bool.and_eq_true,
      decide_eq_true_eq, beq_iff_eq] at ht
    rw [char_toNat_ofNat _ (by omega)] at ht
    rcases ht with ⟨t1, t2⟩ | t1 <;> omega
  · exact h

theorem normLetter_not_diacritic (c : Char) (h : isDiacritic c = false) :
    isDiacritic (normLetter c) = false := by
  rw [normLetter]
  split_ifs <;> first | exact h | decide

theorem not_block_not_diacritic (c : Char)
    (h : (decide (0x600 ≤ c.toNat) && decide (c.toNat ≤ 0x6FF)) = false) :
    isDiacritic c = false := by
  rw [← Bool.not_eq_true]
  intro ht
  simp only [isDiacritic, Bool.or_eq_true, Bool.and_eq_true,
    decide_eq_true_eq, beq_iff_eq] at ht
  simp only [Bool.and_eq_false_iff, decide_eq_false_iff_not] at h
  rcases ht with ⟨t1, t2⟩ | t1 <;> rcases h with h1 | h1 <;> omega

theorem foldl_applyEntry_chars (P : Char → Prop)
    (L : List (List Char × List Char))
    (hL : ∀ e ∈ L, ∀ c ∈ e.2, P c) (s : List Char) (hs : ∀ c ∈ s, P c) :
    ∀ c ∈ L.foldl applyEntry s, P c := by
  induction L generalizing s with
  | nil => exact hs
  | cons e L' ih =>
    rw [List.foldl_cons]
    apply ih (fun e' he' => hL e' (by simp [he']))
    intro c hc
    rw [applyEntry] at hc
    split_ifs at hc with hpre
    · rcases List.mem_append.mp hc with h1 | h2
      · exact hL e (by simp) c h1
      · exact hs c (List.mem_of_mem_drop h2)
    · exact hs c hc

theorem collapseWsAux_chars (P : Char → Prop) (hsp : P ' ')
    (l : List Char) (b : Bool) (h : ∀ c ∈ l, P c) :
    ∀ c ∈ collapseWsAux l b, P c := by
  induction l generalizing b with
  | nil => intro c hc; simp [collapseWsAux] at hc
  | cons d rest ih =>
    intro c hc
    rw [collapseWsAux] at hc
    split_ifs at hc with h1 h2
    · exact ih true (fun x hx => h x (by simp [hx])) c hc
    · rcases List.mem_cons.mp hc with rfl | hc'
      · exact hsp
      · exact ih true (fun x hx => h x (by simp [hx])) c hc'
    · rcases List.mem_cons.mp hc with rfl | hc'
      · exact h c (by simp)
      · exact ih false (fun x hx => h x (by simp [hx])) c hc'

theorem mem_trim (l : List Char) (c : Char) (h : c ∈ trim l) : c ∈ l := by
  rw [trim, List.mem_reverse] at h
  have h1 : c ∈ (l.dropWhile isJsWs).reverse :=
    (List.dropWhile_sublist _).subset h
  rw [List.mem_reverse] at h1
  exact (List.dropWhile_sublist _).subset h1

theorem splitOnChar_ne_nil (sep : Char) (l : List Char) :
    splitOnChar sep l ≠ [] := by
  cases l with
  | nil => simp [splitOnChar]
  | cons d rest =>
    rw [splitOnChar]
    cases h : splitOnChar sep rest with
    | nil => simp
    | cons w ws => split_ifs <;> simp

theorem splitOnChar_chars (P : Char → Prop) (sep : Char) (l : List Char)
    (h : ∀ c ∈ l, P c) :
    ∀ w ∈ splitOnChar sep l, ∀ c ∈ w, P c := by
  induction l with
  | nil =>
    intro w hw c hc
    simp [splitOnChar] at hw
    subst hw
    simp at hc
  | cons d rest ih =>
    intro w hw c hc
    rw [splitOnChar] at hw
    have ihrest := ih (fun x hx => h x (by simp [hx]))
    cases hsr : splitOnChar sep rest with
    | nil => exact absurd hsr (splitOnChar_ne_nil sep rest)
    | cons w0 ws =>
      rw [hsr] at hw
      split_ifs at hw with hd
      · rcases List.mem_cons.mp hw with rfl | hw'
        · simp at hc
        · exact ihrest w (by rw [hsr]; exact hw') c hc
      · rcases List.mem_cons.mp hw with rfl | hw'
        · rcases List.mem_cons.mp hc with rfl | hc'
          · exact h c (by simp)
          · exact ihrest w0 (by rw [hsr]; simp) c hc'
        · exact ihrest w (by rw [hsr]; simp [hw']) c hc

theorem titleWord_chars (P : Char → Prop)
    (hup : ∀ c, P c → P (Char.toUpper c)) (w : List Char)
    (h : ∀ c ∈ w, P c) : ∀ c ∈ titleWord w, P c := by
  cases w with
  | nil => intro c hc; simp [titleWord] at hc
  | cons d r =>
    intro c hc
    rw [titleWord] at hc
    rcases List.mem_cons.mp hc with rfl | hc'
    · exact hup d (h d (by simp))
    · exact h c (by simp [hc'])

theorem intercalate_chars (P : Char → Prop) (hsp : P ' ')
    (ws : List (List Char)) (h : ∀ w ∈ ws, ∀ c ∈ w, P c) :
    ∀ c ∈ List.intercalate [' '] ws, P c := by
  induction ws with
  | nil => intro c hc; simp [List.intercalate] at hc
  | cons w ws' ih =>
    cases ws' with
    | nil =>
      intro c hc
      simp [List.intercalate] at hc
      exact h w (by simp) c hc
    | cons w2 ws'' =>
      intro c hc
      rw [List.intercalate, List.intersperse_cons₂] at hc
      simp only [List.flatten_cons] at hc
      rcases List.mem_append.mp hc with h1 | h12
      · exact h w (by simp) c h1
      rcases List.mem_append.mp h12 with h2 | h3
      · rw [List.mem_singleton] at h2
        rw [h2]
        exact hsp
      · exact ih (fun ww hww => h ww (List.mem_cons_of_mem w hww)) c
          (by rw [List.intercalate]; exact h3)

set_option maxHeartbeats 2000000 in
theorem normalizeArabicName_no_diacritic (s : List Char)
    (rec : ArabicNormalized) (h : normalizeArabicName s = some rec) :
    ∀ c ∈ rec.normalized, isDiacritic c = false := by
  unfold normalizeArabicName at h
  split_ifs at h with h0
  · rw [← Option.some.inj h]
    intro c hc
    simp at hc
  · rcases hp : soundexParts (splitOnChar ' ' (trim (collapseWs
        (normalizeArabicPrefixes (normalizeArabicLetters
          (removeDiacritics s)))))) with _ | parts
    · rw [hp] at h
      rcases hq : arabicSoundex ((trim (collapseWs (normalizeArabicPrefixes
          (normalizeArabicLetters (removeDiacritics s))))).filter
          (fun c => !(isJsWs c))) with _ | fullSx <;> rw [hq] at h <;>
        simp at h
    · rw [hp] at h
      rcases hq : arabicSoundex ((trim (collapseWs (normalizeArabicPrefixes
          (normalizeArabicLetters (removeDiacritics s))))).filter
          (fun c => !(isJsWs c))) with _ | fullSx
      · rw [hq] at h
        simp at h
      · rw [hq] at h
        rw [← Option.some.inj h]
        intro c hc
        simp only [] at hc
        have h1 : ∀ x ∈ removeDiacritics s, isDiacritic x = false := by
          intro x hx
          have := List.mem_filter.mp hx
          simpa using this.2
        have h2 : ∀ x ∈ normalizeArabicLetters (removeDiacritics s),
            isDiacritic x = false := by
          intro x hx
          rw [normalizeArabicLetters] at hx
          obtain ⟨y, hy, rfl⟩ := List.mem_map.mp hx
          exact normLetter_not_diacritic y (h1 y hy)
        have h3 : ∀ x ∈ normalizeArabicPrefixes (normalizeArabicLetters
            (removeDiacritics s)), isDiacritic x = false := by
          rw [normalizeArabicPrefixes]
          exact foldl_applyEntry_chars _ _ (by decide) _ h2
        have h4 : ∀ x ∈ collapseWs (normalizeArabicPrefixes
            (normalizeArabicLetters (removeDiacritics s))),
            isDiacritic x = false := by
          rw [collapseWs]
          exact collapseWsAux_chars _ (by decide) _ false h3
        exact h4 c (mem_trim (collapseWs (normalizeArabicPrefixes
          (normalizeArabicLetters (removeDiacritics s)))) c hc)

set_option maxHeartbeats 2000000 in
/-- C8: the `normalized` field of the script-dispatched normalization
contains no codepoint in the diacritics range U+064B–U+065F and no
superscript alef U+0670: the Arabic branch strips them first and no later
stage reintroduces one; the Latin branch starts from a string with no
Arabic-block codepoint at all and only lower/upper-cases ASCII letters,
substitutes ASCII table values, and inserts spaces. -/
theorem claim_C8 (s r : List Char) (h : dispatchNormalized s = some r) :
    ∀ c ∈ r, isDiacritic c = false := by
  unfold dispatchNormalized at h
  split_ifs at h with hs
  · rcases hA : normalizeArabicName s with _ | rec
    · rw [hA] at h
      simp at h
    · rw [hA] at h
      simp only [Option.map_some', Option.some.injEq] at h
      rw [← h]
      exact normalizeArabicName_no_diacritic s rec hA
  · simp only [Option.some.injEq] at h
    rw [← h]
    rw [Bool.not_eq_true] at hs
    have hblock : ∀ c ∈ s, isDiacritic c = false := by
      intro c hc
      apply not_block_not_diacritic
      simp only [containsArabic, List.any_eq_false] at hs
      have := hs c hc
      rw [Bool.not_eq_true] at this
      exact this
    unfold normalizeEnglishName
    split_ifs with h0
    · intro c hc
      simp at hc
    · simp only []
      have e1 : ∀ c ∈ s.map Char.toLower, isDiacritic c = false := by
        intro c hc
        obtain ⟨y, hy, rfl⟩ := List.mem_map.mp hc
        exact toLower_not_diacritic y (hblock y hy)
      have e2 : ∀ c ∈ normalizeEnglishPrefixes s, isDiacritic c = false := by
        rw [normalizeEnglishPrefixes]
        exact foldl_applyEntry_chars _ _ (by decide) _ e1
      have e3 : ∀ c ∈ collapseWs (normalizeEnglishPrefixes s),
          isDiacritic c = false := by
        rw [collapseWs]
        exact collapseWsAux_chars _ (by decide) _ false e2
      have e4 : ∀ c ∈ trim (collapseWs (normalizeEnglishPrefixes s)),
          isDiacritic c = false := fun c hc => e3 c (mem_trim _ c hc)
      have e5 := splitOnChar_chars _ ' ' _ e4
      have e6 : ∀ w ∈ (splitOnChar ' ' (trim (collapseWs
          (normalizeEnglishPrefixes s)))).map titleWord,
          ∀ c ∈ w, isDiacritic c = false := by
        intro w hw
        obtain ⟨w0, hw0, rfl⟩ := List.mem_map.mp hw
        exact titleWord_chars _ (fun c hc => toUpper_not_diacritic c hc)
          w0 (e5 w0 hw0)
      exact intercalate_chars _ (by decide) _ e6

set_option maxHeartbeats 1000000 in
theorem claim_C8_witness :
    dispatchNormalized "محمّد".toList = some "محمد".toList ∧
    isDiacritic 'م' = false := by
  refine ⟨by decide, ?_⟩
  exact claim_C8 "محمّد".toList "محمد".toList (by decide) 'م' (by decide)

theorem scanAux_length_le (s2 : List Char) (w : ℤ) (l : List Char) :
    ∀ (i : ℕ) (s2M : List Bool),
      (scanAux s2 w l i s2M).length ≤ l.length := by
  induction l with
  | nil => intro i s2M; simp [scanAux]
  | cons c rest ih =>
    intro i s2M
    rw [scanAux]
    cases hf : findJ s2 s2M w c i with
    | none =>
      calc (scanAux s2 w rest (i + 1) s2M).length ≤ rest.length := ih _ _
        _ ≤ (c :: rest).length := by simp
    | some j =>
      simp only [List.length_cons]
      exact Nat.succ_le_succ (ih _ _)

theorem findJ_spec (s2 : List Char) (s2M : List Bool) (w : ℤ) (c : Char)
    (i j : ℕ) (h : findJ s2 s2M w c i = some j) :
    j < s2.length ∧ s2M.getD j true = false ∧ s2.get? j = some c := by
  have hmem := List.mem_of_find?_eq_some h
  have hp := List.find?_some h
  simp only [Bool.and_eq_true] at hp
  refine ⟨List.mem_range.mp hmem, ?_, ?_⟩
  · have := hp.1.2
    simpa using this
  · have := hp.2
    rwa [beq_iff_eq] at this

theorem scanAux_snd_spec (s2 : List Char) (w : ℤ) (l : List Char) :
    ∀ (i : ℕ) (s2M : List Bool), s2M.length = s2.length →
      (∀ x ∈ scanAux s2 w l i s2M,
        x.2.1 < s2.length ∧ s2M.getD x.2.1 true = false) ∧
      ((scanAux s2 w l i s2M).map (fun x => x.2.1)).Nodup := by
  induction l with
  | nil => intro i s2M _; simp [scanAux]
  | cons c rest ih =>
    intro i s2M hM
    rw [scanAux]
    cases hf : findJ s2 s2M w c i with
    | none => exact ih (i + 1) s2M hM
    | some j =>
      obtain ⟨hj, hjm, hjc⟩ := findJ_spec s2 s2M w c i j hf
      have hM' : (s2M.set j true).length = s2.length := by
        rw [List.length_set]; exact hM
      obtain ⟨ih1, ih2⟩ := ih (i + 1) (s2M.set j true) hM'
      have hnotj : ∀ x ∈ scanAux s2 w rest (i + 1) (s2M.set j true),
          x.2.1 ≠ j := by
        intro x hx hxy
        have hx2 := (ih1 x hx).2
        rw [hxy] at hx2
        rw [List.getD_eq_getElem?_getD,
          List.getElem?_set_self (by rw [hM]; exact hj)] at hx2
        simp at hx2
      constructor
      · intro x hx
        rcases List.mem_cons.mp hx with rfl | hx'
        · exact ⟨hj, hjm⟩
        · obtain ⟨hx1, hx2⟩ := ih1 x hx'
          refine ⟨hx1, ?_⟩
          rw [List.getD_eq_getElem?_getD,
            List.getElem?_set_ne (fun he => hnotj x hx' he.symm)] at hx2
          rw [List.getD_eq_getElem?_getD]
          exact hx2
      · rw [List.map_cons, List.nodup_cons]
        refine ⟨?_, ih2⟩
        intro hmem
        obtain ⟨x, hx, hxj⟩ := List.mem_map.mp hmem
        exact hnotj x hx hxj

theorem nodup_bounded_length_le (l : List ℕ) (n : ℕ) (hnd : l.Nodup)
    (hb : ∀ x ∈ l, x < n) : l.length ≤ n := by
  have h1 : l.toFinset.card = l.length := List.toFinset_card_of_nodup hnd
  have h2 : l.toFinset ⊆ Finset.range n := by
    intro x hx
    rw [List.mem_toFinset] at hx
    exact Finset.mem_range.mpr (hb x hx)
  have := Finset.card_le_card h2
  simpa [h1] using this

theorem scan_length_le_left (s1 s2 : List Char) (w : ℤ) :
    (scan s1 s2 w).length ≤ s1.length := by
  unfold scan
  exact scanAux_length_le s2 w s1 0 _

theorem scan_length_le_right (s1 s2 : List Char) (w : ℤ) :
    (scan s1 s2 w).length ≤ s2.length := by
  have hspec := scanAux_snd_spec s2 w s1 0 (List.replicate s2.length false)
    (by simp)
  have hnd := hspec.2
  have hb : ∀ x ∈ (scan s1 s2 w).map (fun x => x.2.1), x < s2.length := by
    intro x hx
    obtain ⟨y, hy, rfl⟩ := List.mem_map.mp hx
    exact (hspec.1 y hy).1
  have := nodup_bounded_length_le _ _ hnd hb
  simpa using this

theorem hamming_le (a b : List Char) : hamming a b ≤ a.length := by
  induction a generalizing b with
  | nil => simp [hamming]
  | cons x xs ih =>
    cases b with
    | nil => simp [hamming]
    | cons y ys =>
      rw [hamming]
      have := ih ys
      split_ifs <;> simp <;> omega

theorem commonPrefixLen_le (a b : List Char) :
    commonPrefixLen a b ≤ a.length := by
  induction a generalizing b with
  | nil => simp [commonPrefixLen]
  | cons x xs ih =>
    cases b with
    | nil => simp [commonPrefixLen]
    | cons y ys =>
      rw [commonPrefixLen]
      have := ih ys
      split_ifs <;> simp <;> omega

theorem jaro_formula_bounds (m t len1 len2 : ℕ) (hm : 1 ≤ m)
    (h1 : m ≤ len1) (h2 : m ≤ len2) (ht : t ≤ m) :
    0 ≤ ((m : ℚ) / len1 + (m : ℚ) / len2 + ((m : ℚ) - (t : ℚ) / 2) / m) / 3 ∧
    ((m : ℚ) / len1 + (m : ℚ) / len2 + ((m : ℚ) - (t : ℚ) / 2) / m) / 3
      ≤ 1 := by
  have hmq : (0 : ℚ) < m := by exact_mod_cast hm
  have hl1 : (0 : ℚ) < len1 := by
    have : 1 ≤ len1 := le_trans hm h1
    exact_mod_cast this
  have hl2 : (0 : ℚ) < len2 := by
    have : 1 ≤ len2 := le_trans hm h2
    exact_mod_cast this
  have htq : (t : ℚ) ≤ m := by exact_mod_cast ht
  have ht0 : (0 : ℚ) ≤ t := by positivity
  have e1 : (0 : ℚ) ≤ (m : ℚ) / len1 := by positivity
  have e2 : (0 : ℚ) ≤ (m : ℚ) / len2 := by positivity
  have e3 : (0 : ℚ) ≤ ((m : ℚ) - (t : ℚ) / 2) / m := by
    apply div_nonneg _ (le_of_lt hmq)
    linarith
  have b1 : (m : ℚ) / len1 ≤ 1 := by
    rw [div_le_one hl1]
    exact_mod_cast h1
  have b2 : (m : ℚ) / len2 ≤ 1 := by
    rw [div_le_one hl2]
    exact_mod_cast h2
  have b3 : ((m : ℚ) - (t : ℚ) / 2) / m ≤ 1 := by
    rw [div_le_one hmq]
    linarith
  constructor
  · linarith
  · linarith

theorem winkler_bounds (jaro q : ℚ) (h0 : 0 ≤ jaro) (h1 : jaro ≤ 1)
    (hq0 : 0 ≤ q) (hq1 : q ≤ 1) :
    0 ≤ jaro + q * (1 - jaro) ∧ jaro + q * (1 - jaro) ≤ 1 := by
  constructor
  · nlinarith
  · nlinarith

/-- C6: the similarity scorer always returns a value in the closed
interval [0, 1]: the matched count is at least 1 and at most either
length in the scoring branch, the transposition count never exceeds the
matched count (so `m − t/2 ≥ m/2 ≥ 0`), and the Winkler bonus
`jaro + p·0.1·(1 − jaro)` with `p ≤ 4` cannot push the score above 1. -/
theorem claim_C6 (s1 s2 : List Char) :
    0 ≤ jaroWinkler s1 s2 ∧ jaroWinkler s1 s2 ≤ 1 := by
  simp only [jaroWinkler]
  split_ifs with h1 h2 h3
  · norm_num
  · norm_num
  · norm_num
  · push_neg at h2
    obtain ⟨h2a, h2b⟩ := h2
    have hm1 : 1 ≤ (scan s1 s2 (matchWindow s1.length s2.length)).length :=
      Nat.one_le_iff_ne_zero.mpr h3
    have hmle1 := scan_length_le_left s1 s2 (matchWindow s1.length s2.length)
    have hmle2 := scan_length_le_right s1 s2 (matchWindow s1.length s2.length)
    have htle : hamming
        (matchedLeft (scan s1 s2 (matchWindow s1.length s2.length)))
        (matchedRight s2 (scan s1 s2 (matchWindow s1.length s2.length)))
        ≤ (scan s1 s2 (matchWindow s1.length s2.length)).length := by
      calc hamming _ _
          ≤ (matchedLeft
              (scan s1 s2 (matchWindow s1.length s2.length))).length :=
            hamming_le _ _
        _ = _ := by rw [matchedLeft, List.length_map]
    have hple : commonPrefixLen (s1.take 4) (s2.take 4) ≤ 4 := by
      calc commonPrefixLen (s1.take 4) (s2.take 4)
          ≤ (s1.take 4).length := commonPrefixLen_le _ _
        _ ≤ 4 := List.length_take_le _ _
    have hj := jaro_formula_bounds _
      (hamming (matchedLeft (scan s1 s2 (matchWindow s1.length s2.length)))
        (matchedRight s2 (scan s1 s2 (matchWindow s1.length s2.length))))
      s1.length s2.length hm1 hmle1 hmle2 htle
    have hq0 : (0 : ℚ) ≤
        (commonPrefixLen (s1.take 4) (s2.take 4) : ℚ) * (1 / 10) := by
      positivity
    have hq1 : (commonPrefixLen (s1.take 4) (s2.take 4) : ℚ) * (1 / 10)
        ≤ 1 := by
      have : (commonPrefixLen (s1.take 4) (s2.take 4) : ℚ) ≤ 4 := by
        exact_mod_cast hple
      linarith
    exact winkler_bounds _ _ hj.1 hj.2 hq0 hq1

theorem inWindow_comm (w : ℤ) (p q : ℕ) : inWindow w p q = inWindow w q p := by
  unfold inWindow
  rw [← Bool.decide_and, ← Bool.decide_and, decide_eq_decide]
  omega

theorem inWindow_nonneg (w : ℤ) (p q : ℕ) (h : inWindow w p q = true) :
    0 ≤ w := by
  simp only [inWindow, Bool.and_eq_true, decide_eq_true_eq] at h
  omega

theorem twoPointer_nil_left (w : ℤ) (qs : List ℕ) :
    twoPointer w [] qs = [] := by
  rw [twoPointer.eq_def]

theorem twoPointer_nil_right (w : ℤ) (ps : List ℕ) :
    twoPointer w ps [] = [] := by
  cases ps <;> rw [twoPointer.eq_def]

theorem twoPointer_cons (w : ℤ) (p q : ℕ) (ps qs : List ℕ) :
    twoPointer w (p :: ps) (q :: qs) =
      if inWindow w p q then (p, q) :: twoPointer w ps qs
      else if (p : ℤ) + w < (q : ℤ) then twoPointer w ps (q :: qs)
      else twoPointer w (p :: ps) qs := by
  rw [twoPointer.eq_def]

theorem twoPointer_neg (w : ℤ) (hw : w < 0) :
    ∀ (ps qs : List ℕ), twoPointer w ps qs = [] := by
  intro ps qs
  induction ps generalizing qs with
  | nil => rw [twoPointer_nil_left]
  | cons p ps' ih =>
    induction qs with
    | nil => rw [twoPointer_nil_right]
    | cons q qs' ihq =>
      rw [twoPointer_cons]
      rw [if_neg (fun hc => absurd (inWindow_nonneg w p q hc) (by omega))]
      split_ifs with h2
      · exact ih (q :: qs')
      · exact ihq

theorem twoPointer_swap (w : ℤ) (ps qs : List ℕ) :
    twoPointer w ps qs = (twoPointer w qs ps).map Prod.swap := by
  have main : ∀ (n : ℕ) (ps qs : List ℕ), ps.length + qs.length ≤ n →
      twoPointer w ps qs = (twoPointer w qs ps).map Prod.swap := by
    intro n
    induction n with
    | zero =>
      intro ps qs hlen
      have hps : ps = [] := List.eq_nil_of_length_eq_zero (by omega)
      have hqs : qs = [] := List.eq_nil_of_length_eq_zero (by omega)
      subst hps
      subst hqs
      rw [twoPointer_nil_left]
      rfl
    | succ n ih =>
      intro ps qs hlen
      match ps, qs with
      | [], qs =>
        rw [twoPointer_nil_left, twoPointer_nil_right]
        rfl
      | p :: ps', [] =>
        rw [twoPointer_nil_right, twoPointer_nil_left]
        rfl
      | p :: ps', q :: qs' =>
        simp only [List.length_cons] at hlen
        rw [twoPointer_cons]
        by_cases hwin : inWindow w p q = true
        · rw [if_pos hwin]
          conv_rhs => rw [twoPointer_cons]
          rw [if_pos (by rw [inWindow_comm]; exact hwin)]
          rw [List.map_cons]
          rw [ih ps' qs' (by omega)]
          rfl
        · rw [if_neg hwin]
          have hwin' : inWindow w q p ≠ true := by
            rw [inWindow_comm]; exact hwin
          by_cases hpq : (p : ℤ) + w < (q : ℤ)
          · rw [if_pos hpq]
            by_cases hqp : (q : ℤ) + w < (p : ℤ)
            · have hwneg : w < 0 := by omega
              rw [twoPointer_neg w hwneg, twoPointer_neg w hwneg]
              rfl
            · conv_rhs => rw [twoPointer_cons]
              rw [if_neg hwin', if_neg hqp]
              exact ih ps' (q :: qs') (by simp; omega)
          · rw [if_neg hpq]
            have hqp : (q : ℤ) + w < (p : ℤ) := by
              simp only [inWindow, Bool.and_eq_true, decide_eq_true_eq,
                not_and] at hwin
              omega
            conv_rhs => rw [twoPointer_cons]
            rw [if_neg hwin', if_pos hqp]
            exact ih (p :: ps') qs' (by simp; omega)
  exact main (ps.length + qs.length) ps qs le_rfl

theorem classGreedy_nil_right (w : ℤ) (ps : List ℕ) :
    classGreedy w ps [] = [] := by
  induction ps with
  | nil => rfl
  | cons p ps' ih => rw [classGreedy]; simp [ih]

theorem classGreedy_drop_q (w : ℤ) (q : ℕ) :
    ∀ (L qs : List ℕ), (∀ p' ∈ L, (q : ℤ) < (p' : ℤ) - w) →
      classGreedy w L (q :: qs) = classGreedy w L qs := by
  intro L
  induction L with
  | nil => intro qs _; rfl
  | cons p' ps'' ih =>
    intro qs hq
    have hqfail : inWindow w p' q = false := by
      have := hq p' (by simp)
      simp only [inWindow, Bool.and_eq_false_iff, decide_eq_false_iff_not]
      left
      omega
    rw [classGreedy, classGreedy]
    rw [List.find?_cons_of_neg _ (by simp [hqfail])]
    cases hf : (qs.find? fun q' => inWindow w p' q') with
    | none =>
      simp only []
      exact ih qs (fun x hx => hq x (by simp [hx]))
    | some q' =>
      have hq'win : inWindow w p' q' = true := List.find?_some hf
      have hqq' : q ≠ q' := by
        intro he
        rw [← he] at hq'win
        rw [hqfail] at hq'win
        simp at hq'win
      simp only []
      rw [List.erase_cons_tail (by simp [hqq'])]
      congr 1
      exact ih (qs.erase q') (fun x hx => hq x (by simp [hx]))

theorem classGreedy_eq_twoPointer (w : ℤ) :
    ∀ (n : ℕ) (ps qs : List ℕ), ps.length + qs.length ≤ n →
      ps.Sorted (· ≤ ·) → qs.Sorted (· ≤ ·) →
      classGreedy w ps qs = twoPointer w ps qs := by
  intro n
  induction n with
  | zero =>
    intro ps qs hlen _ _
    have hps : ps = [] := List.eq_nil_of_length_eq_zero (by omega)
    subst hps
    rw [twoPointer_nil_left]
    rfl
  | succ n ih =>
    intro ps qs hlen hsp hsq
    match ps, qs with
    | [], qs =>
      rw [twoPointer_nil_left]
      rfl
    | p :: ps', [] => rw [classGreedy_nil_right, twoPointer_nil_right]
    | p :: ps', q :: qs' =>
      simp only [List.length_cons] at hlen
      have hsp' := hsp.of_cons
      have hsq' := hsq.of_cons
      rw [twoPointer_cons]
      by_cases hwin : inWindow w p q = true
      · rw [if_pos hwin]
        rw [classGreedy]
        rw [List.find?_cons_of_pos _ hwin]
        simp only []
        rw [List.erase_cons_head]
        rw [ih ps' qs' (by omega) hsp' hsq']
      · rw [if_neg hwin]
        by_cases hpq : (p : ℤ) + w < (q : ℤ)
        · rw [if_pos hpq]
          rw [classGreedy]
          have hnone : ((q :: qs').find? fun q' => inWindow w p q')
              = none := by
            rw [List.find?_eq_none]
            intro x hx
            have hqx : q ≤ x := by
              rcases List.mem_cons.mp hx with rfl | hx'
              · exact le_rfl
              · exact (List.sorted_cons.mp hsq).1 x hx'
            simp only [inWindow, Bool.and_eq_true, decide_eq_true_eq,
              not_and]
            intro _
            omega
          rw [hnone]
          simp only []
          exact ih ps' (q :: qs') (by simp; omega) hsp' hsq
        · rw [if_neg hpq]
          have hqp : (q : ℤ) < (p : ℤ) - w := by
            simp only [inWindow, Bool.and_eq_true, decide_eq_true_eq,
              not_and] at hwin
            omega
          rw [classGreedy_drop_q w q (p :: ps') qs'
            (fun p' hp' => by
              have hpp : p ≤ p' := by
                rcases List.mem_cons.mp hp' with rfl | hp''
                · exact le_rfl
                · exact (List.sorted_cons.mp hsp).1 p' hp''
              omega)]
          exact ih (p :: ps') qs' (by simp; omega) hsp hsq'

theorem find?_filter (l : List ℕ) (p f : ℕ → Bool) :
    (l.filter p).find? f = l.find? (fun a => p a && f a) := by
  induction l with
  | nil => rfl
  | cons a t ih =>
    by_cases hp : p a = true
    · rw [List.filter_cons_of_pos hp]
      by_cases hf : f a = true
      · rw [List.find?_cons_of_pos _ hf,
          List.find?_cons_of_pos _ (by simp [hp, hf])]
      · rw [List.find?_cons_of_neg _ hf,
          List.find?_cons_of_neg _ (by simp [hf]), ih]
    · rw [List.filter_cons_of_neg hp,
        List.find?_cons_of_neg _ (by simp [hp]), ih]

theorem findJ_eq (s2 : List Char) (s2M : List Bool) (w : ℤ) (c : Char)
    (i : ℕ) :
    findJ s2 s2M w c i = (freeQs s2 s2M c).find? (fun j => inWindow w i j) := by
  rw [findJ, freeQs, find?_filter]
  congr 1
  funext j
  cases hI : inWindow w i j <;> cases hG : s2M.getD j true <;>
    cases hC : (s2.get? j == some c) <;> simp [hI, hG, hC]

theorem filter_erase_of_pred (p q : ℕ → Bool) (j : ℕ) (hpj : p j = true)
    (hqj : q j = false) (hpq : ∀ x, x ≠ j → q x = p x) :
    ∀ (l : List ℕ), l.Nodup → j ∈ l →
      l.filter q = (l.filter p).erase j := by
  intro l
  induction l with
  | nil => intro _ hj; simp at hj
  | cons a t ih =>
    intro hnd hj
    rw [List.nodup_cons] at hnd
    by_cases haj : a = j
    · subst haj
      rw [List.filter_cons_of_neg (by simp [hqj]),
        List.filter_cons_of_pos (by simp [hpj]), List.erase_cons_head]
      apply List.filter_congr
      intro x hx
      exact hpq x (fun he => hnd.1 (he ▸ hx))
    · have hqa : q a = p a := hpq a haj
      have hjt : j ∈ t := by
        rcases List.mem_cons.mp hj with h | h
        · exact absurd h.symm haj
        · exact h
      by_cases hpa : p a = true
      · rw [List.filter_cons_of_pos (by rw [hqa]; exact hpa),
          List.filter_cons_of_pos hpa,
          List.erase_cons_tail (by simp [haj]), ih hnd.2 hjt]
      · rw [List.filter_cons_of_neg (by rw [hqa]; exact hpa),
          List.filter_cons_of_neg hpa]
        exact ih hnd.2 hjt

theorem freeQs_set_self (s2 : List Char) (s2M : List Bool) (c : Char)
    (j : ℕ) (hM : s2M.length = s2.length) (hj : s2.get? j = some c)
    (hjm : s2M.getD j true = false) :
    freeQs s2 (s2M.set j true) c = (freeQs s2 s2M c).erase j := by
  have hjn : j < s2.length := (List.get?_eq_some.mp hj).1
  have hjlen : j < s2M.length := by rw [hM]; exact hjn
  have hj' : s2[j]? = some c := by rw [← List.get?_eq_getElem?]; exact hj
  have hjm' : s2M[j]?.getD true = false := by
    rw [← List.getD_eq_getElem?_getD]; exact hjm
  apply filter_erase_of_pred
  · simp [hj', hjm']
  · simp [List.getElem?_set_self hjlen]
  · intro x hxj
    simp [List.getElem?_set_ne (fun h => hxj h.symm)]
  · exact List.nodup_range _
  · exact List.mem_range.mpr hjn

theorem freeQs_set_other (s2 : List Char) (s2M : List Bool) (c d : Char)
    (j : ℕ) (hj : s2.get? j = some d) (hdc : d ≠ c) :
    freeQs s2 (s2M.set j true) c = freeQs s2 s2M c := by
  apply List.filter_congr
  intro x _
  by_cases hxj : x = j
  · subst hxj
    have hx' : (s2[x]? == some c) = false := by
      rw [← List.get?_eq_getElem?, hj]
      simp [hdc]
    simp [hx']
  · simp [List.getElem?_set_ne (fun h => hxj h.symm)]

theorem posOf_ge (c : Char) :
    ∀ (l : List Char) (i : ℕ), ∀ x ∈ posOf c l i, i ≤ x := by
  intro l
  induction l with
  | nil => intro i x hx; simp [posOf] at hx
  | cons d rest ih =>
    intro i x hx
    rw [posOf] at hx
    split_ifs at hx with hd
    · rcases List.mem_cons.mp hx with rfl | hx'
      · exact le_rfl
      · exact le_trans (by omega) (ih (i + 1) x hx')
    · exact le_trans (by omega) (ih (i + 1) x hx)

theorem posOf_sorted (c : Char) :
    ∀ (l : List Char) (i : ℕ), (posOf c l i).Sorted (· < ·) := by
  intro l
  induction l with
  | nil => intro i; simp [posOf]
  | cons d rest ih =>
    intro i
    rw [posOf]
    split_ifs with hd
    · rw [List.sorted_cons]
      exact ⟨fun b hb => lt_of_lt_of_le (by omega) (posOf_ge c rest (i + 1) b hb),
        ih (i + 1)⟩
    · exact ih (i + 1)

theorem posOf_succ (c : Char) :
    ∀ (l : List Char) (i : ℕ),
      posOf c l (i + 1) = (posOf c l i).map (· + 1) := by
  intro l
  induction l with
  | nil => intro i; simp [posOf]
  | cons d rest ih =>
    intro i
    rw [posOf, posOf]
    split_ifs with hd
    · rw [List.map_cons, ih (i + 1)]
    · exact ih (i + 1)

theorem range_filter_get (c : Char) :
    ∀ (s2 : List Char),
      (List.range s2.length).filter (fun j => s2.get? j == some c)
        = posOf c s2 0 := by
  intro s2
  induction s2 with
  | nil => simp [posOf]
  | cons d rest ih =>
    rw [show (d :: rest).length = rest.length + 1 from rfl,
      List.range_succ_eq_map, List.filter_cons]
    have hhead : ((d :: rest).get? 0 == some c) = (d == c) := by rfl
    rw [List.filter_map]
    have hcomp : ((fun j => (d :: rest).get? j == some c) ∘ Nat.succ)
        = (fun j => rest.get? j == some c) := by
      funext j
      rfl
    rw [hcomp, ih, posOf]
    have hmap : (posOf c rest 0).map Nat.succ = posOf c rest 1 := by
      rw [posOf_succ]
    rw [hmap, hhead]
    by_cases hd : d = c
    · rw [if_pos (by simp [hd]), if_pos hd]
    · rw [if_neg (by simp [hd]), if_neg hd]

theorem freeQs_replicate (s2 : List Char) (c : Char) :
    freeQs s2 (List.replicate s2.length false) c = posOf c s2 0 := by
  rw [freeQs, ← range_filter_get c s2]
  apply List.filter_congr
  intro j hj
  have hjn : j < s2.length := List.mem_range.mp hj
  simp [List.getD_eq_getElem?_getD, List.getElem?_replicate, hjn]

theorem scanAux_class (s2 : List Char) (w : ℤ) (c : Char) :
    ∀ (l : List Char) (i : ℕ) (s2M : List Bool), s2M.length = s2.length →
      ((scanAux s2 w l i s2M).filter (fun x => x.2.2 == c)).map
          (fun x => (x.1, x.2.1))
        = classGreedy w (posOf c l i) (freeQs s2 s2M c) := by
  intro l
  induction l with
  | nil => intro i s2M _; simp [scanAux, posOf, classGreedy]
  | cons d rest ih =>
    intro i s2M hM
    rw [scanAux, posOf]
    by_cases hdc : d = c
    · subst hdc
      rw [if_pos rfl]
      cases hf : findJ s2 s2M w d i with
      | some j =>
        simp only []
        obtain ⟨hjn, hjm, hjc⟩ := findJ_spec s2 s2M w d i j hf
        rw [List.filter_cons_of_pos (by simp), List.map_cons]
        rw [classGreedy]
        rw [show ((freeQs s2 s2M d).find? fun q => inWindow w i q) = some j
          from by rw [← findJ_eq]; exact hf]
        simp only []
        congr 1
        rw [ih (i + 1) (s2M.set j true) (by rw [List.length_set]; exact hM)]
        rw [freeQs_set_self s2 s2M d j hM hjc hjm]
      | none =>
        simp only []
        rw [classGreedy]
        rw [show ((freeQs s2 s2M d).find? fun q => inWindow w i q) = none
          from by rw [← findJ_eq]; exact hf]
        simp only []
        exact ih (i + 1) s2M hM
    · cases hf : findJ s2 s2M w d i with
      | some j =>
        simp only []
        obtain ⟨hjn, hjm, hjc⟩ := findJ_spec s2 s2M w d i j hf
        rw [List.filter_cons_of_neg (by simp [hdc])]
        rw [if_neg hdc]
        rw [ih (i + 1) (s2M.set j true) (by rw [List.length_set]; exact hM)]
        rw [freeQs_set_other s2 s2M c d j hjc hdc]
      | none =>
        simp only []
        rw [if_neg hdc]
        exact ih (i + 1) s2M hM

theorem scan_class (s1 s2 : List Char) (w : ℤ) (c : Char) :
    ((scan s1 s2 w).filter (fun x => x.2.2 == c)).map
        (fun x => (x.1, x.2.1))
      = classGreedy w (posOf c s1 0) (posOf c s2 0) := by
  unfold scan
  rw [scanAux_class s2 w c s1 0 _ (by simp)]
  rw [freeQs_replicate]

theorem scan_pairs_swap (s1 s2 : List Char) (w : ℤ) (c : Char) :
    ((scan s1 s2 w).filter (fun x => x.2.2 == c)).map
        (fun x => (x.1, x.2.1))
      = (((scan s2 s1 w).filter (fun x => x.2.2 == c)).map
          (fun x => (x.1, x.2.1))).map Prod.swap := by
  rw [scan_class s1 s2 w c, scan_class s2 s1 w c]
  rw [classGreedy_eq_twoPointer w _ (posOf c s1 0) (posOf c s2 0) le_rfl
    ((posOf_sorted c s1 0).le_of_lt) ((posOf_sorted c s2 0).le_of_lt)]
  rw [classGreedy_eq_twoPointer w _ (posOf c s2 0) (posOf c s1 0) le_rfl
    ((posOf_sorted c s2 0).le_of_lt) ((posOf_sorted c s1 0).le_of_lt)]
  exact twoPointer_swap w _ _

theorem scanAux_fst (s2 : List Char) (w : ℤ) :
    ∀ (l : List Char) (i : ℕ) (s2M : List Bool),
      (∀ x ∈ scanAux s2 w l i s2M,
        i ≤ x.1 ∧ x.1 < i + l.length ∧ l.get? (x.1 - i) = some x.2.2) ∧
      ((scanAux s2 w l i s2M).map (fun x => x.1)).Sorted (· < ·) := by
  intro l
  induction l with
  | nil => intro i s2M; simp [scanAux]
  | cons c rest ih =>
    intro i s2M
    rw [scanAux]
    have step : ∀ (s2M' : List Bool) (x : ℕ × ℕ × Char),
        x ∈ scanAux s2 w rest (i + 1) s2M' →
        i ≤ x.1 ∧ x.1 < i + (c :: rest).length ∧
          (c :: rest).get? (x.1 - i) = some x.2.2 := by
      intro s2M' x hx
      obtain ⟨hge, hlt, hchar⟩ := (ih (i + 1) s2M').1 x hx
      refine ⟨by omega, by simp; omega, ?_⟩
      have hsub : x.1 - i = (x.1 - (i + 1)) + 1 := by omega
      rw [hsub]
      simpa using hchar
    cases hf : findJ s2 s2M w c i with
    | none =>
      exact ⟨step s2M, (ih (i + 1) s2M).2⟩
    | some j =>
      simp only []
      constructor
      · intro x hx
        rcases List.mem_cons.mp hx with rfl | hx'
        · exact ⟨le_rfl, by simp, by simp⟩
        · exact step _ x hx'
      · rw [List.map_cons, List.sorted_cons]
        refine ⟨?_, (ih (i + 1) (s2M.set j true)).2⟩
        intro b hb
        obtain ⟨y, hy, rfl⟩ := List.mem_map.mp hb
        have := (step _ y hy).1
        have h2 := ((ih (i + 1) (s2M.set j true)).1 y hy).1
        omega

theorem scanAux_snd_char (s2 : List Char) (w : ℤ) :
    ∀ (l : List Char) (i : ℕ) (s2M : List Bool),
      ∀ x ∈ scanAux s2 w l i s2M, s2.get? x.2.1 = some x.2.2 := by
  intro l
  induction l with
  | nil => intro i s2M x hx; simp [scanAux] at hx
  | cons c rest ih =>
    intro i s2M x hx
    rw [scanAux] at hx
    cases hf : findJ s2 s2M w c i with
    | none =>
      rw [hf] at hx
      exact ih (i + 1) s2M x hx
    | some j =>
      rw [hf] at hx
      rcases List.mem_cons.mp hx with rfl | hx'
      · exact (findJ_spec s2 s2M w c i j hf).2.2
      · exact ih (i + 1) _ x hx'

theorem mem_snd_iff (s1 s2 : List Char) (w : ℤ) (j : ℕ) :
    j ∈ (scan s1 s2 w).map (fun x => x.2.1)
      ↔ j ∈ (scan s2 s1 w).map (fun x => x.1) := by
  constructor
  · intro hj
    obtain ⟨x, hx, hxj⟩ := List.mem_map.mp hj
    have hxpair : (x.1, x.2.1) ∈ ((scan s1 s2 w).filter
        (fun y => y.2.2 == x.2.2)).map (fun y => (y.1, y.2.1)) :=
      List.mem_map.mpr ⟨x, List.mem_filter.mpr ⟨hx, by simp⟩, rfl⟩
    rw [scan_pairs_swap s1 s2 w x.2.2] at hxpair
    obtain ⟨pr, hpr, hpreq⟩ := List.mem_map.mp hxpair
    obtain ⟨y, hy, hyeq⟩ := List.mem_map.mp hpr
    apply List.mem_map.mpr
    refine ⟨y, (List.mem_filter.mp hy).1, ?_⟩
    rw [← hyeq] at hpreq
    have h2 := congrArg Prod.snd hpreq
    simp only [Prod.swap, Prod.snd] at h2
    rw [h2, hxj]
  · intro hj
    obtain ⟨y, hy, hyj⟩ := List.mem_map.mp hj
    have hypair : (y.1, y.2.1) ∈ ((scan s2 s1 w).filter
        (fun x => x.2.2 == y.2.2)).map (fun x => (x.1, x.2.1)) :=
      List.mem_map.mpr ⟨y, List.mem_filter.mpr ⟨hy, by simp⟩, rfl⟩
    rw [scan_pairs_swap s2 s1 w y.2.2] at hypair
    obtain ⟨pr, hpr, hpreq⟩ := List.mem_map.mp hypair
    obtain ⟨x, hx, hxeq⟩ := List.mem_map.mp hpr
    apply List.mem_map.mpr
    refine ⟨x, (List.mem_filter.mp hx).1, ?_⟩
    rw [← hxeq] at hpreq
    have h2 := congrArg Prod.fst hpreq
    simp only [Prod.swap, Prod.fst] at h2
    rw [← hyj, ← h2]

theorem select_sorted (f : ℕ → Option Char) :
    ∀ (n k : ℕ) (T : List ℕ), T.Sorted (· < ·) →
      (∀ x ∈ T, k ≤ x ∧ x < k + n) →
      (List.range' k n).filterMap (fun j => if j ∈ T then f j else none)
        = T.filterMap f := by
  intro n
  induction n with
  | zero =>
    intro k T _ hb
    have hT : T = [] := by
      cases T with
      | nil => rfl
      | cons t ts =>
        have := hb t (by simp)
        omega
    subst hT
    simp
  | succ n ih =>
    intro k T hs hb
    rw [List.range'_succ]
    by_cases hk : k ∈ T
    · obtain ⟨T', rfl⟩ : ∃ T', T = k :: T' := by
        cases T with
        | nil => simp at hk
        | cons t ts =>
          rcases List.mem_cons.mp hk with h | h
          · exact ⟨ts, by rw [h]⟩
          · exfalso
            have h1 : t < k := (List.sorted_cons.mp hs).1 k h
            have h2 := hb t (by simp)
            omega
      rw [List.filterMap_cons, List.filterMap_cons]
      rw [if_pos (by simp)]
      have htail : (List.range' (k + 1) n).filterMap
          (fun j => if j ∈ k :: T' then f j else none)
          = (List.range' (k + 1) n).filterMap
            (fun j => if j ∈ T' then f j else none) := by
        apply List.filterMap_congr
        intro j hjmem
        have hjk : j ≠ k := by
          have := List.mem_range'_1.mp hjmem
          omega
        simp [List.mem_cons, hjk]
      rw [htail]
      have hb' : ∀ x ∈ T', k + 1 ≤ x ∧ x < (k + 1) + n := by
        intro x hx
        have h1 : k < x := (List.sorted_cons.mp hs).1 x hx
        have h2 := hb x (by simp [hx])
        omega
      rw [ih (k + 1) T' hs.of_cons hb']
    · rw [List.filterMap_cons, if_neg hk]
      simp only []
      have hb' : ∀ x ∈ T, k + 1 ≤ x ∧ x < (k + 1) + n := by
        intro x hx
        have h1 := (hb x hx).1
        have h2 := (hb x hx).2
        have h3 : x ≠ k := fun he => hk (he ▸ hx)
        omega
      exact ih (k + 1) T hs hb'

theorem any_snd_eq_mem (P : List (ℕ × ℕ × Char)) (j : ℕ) :
    (P.any (fun x => x.2.1 == j))
      = decide (j ∈ P.map (fun x => x.2.1)) := by
  by_cases hj : j ∈ P.map (fun x => x.2.1)
  · obtain ⟨x, hx, hxj⟩ := List.mem_map.mp hj
    have h1 : P.any (fun x => x.2.1 == j) = true :=
      List.any_eq_true.mpr ⟨x, hx, by simp [hxj]⟩
    rw [h1, decide_eq_true hj]
  · have h1 : P.any (fun x => x.2.1 == j) = false := by
      rw [← Bool.not_eq_true, List.any_eq_true]
      rintro ⟨x, hx, hxe⟩
      exact hj (List.mem_map.mpr ⟨x, hx, beq_iff_eq.mp hxe⟩)
    rw [h1, decide_eq_false hj]

theorem filterMap_all_some (P : List (ℕ × ℕ × Char))
    (g : (ℕ × ℕ × Char) → Option Char)
    (h : ∀ x ∈ P, g x = some x.2.2) :
    P.filterMap g = P.map (fun x => x.2.2) := by
  induction P with
  | nil => rfl
  | cons a t ih =>
    rw [List.filterMap_cons, h a (by simp), List.map_cons]
    rw [ih (fun x hx => h x (by simp [hx]))]

theorem matchedRight_cond (s1 s2 : List Char) (w : ℤ) :
    matchedRight s2 (scan s1 s2 w)
      = (List.range s2.length).filterMap
          (fun j => if j ∈ (scan s1 s2 w).map (fun x => x.2.1)
            then s2.get? j else none) := by
  rw [matchedRight]
  apply List.filterMap_congr
  intro j _
  simp only [any_snd_eq_mem (scan s1 s2 w) j, decide_eq_true_eq]

theorem matchedRight_eq (s1 s2 : List Char) (w : ℤ) :
    matchedRight s2 (scan s1 s2 w) = matchedLeft (scan s2 s1 w) := by
  rw [matchedRight_cond]
  have hcongr : (List.range s2.length).filterMap
      (fun j => if j ∈ (scan s1 s2 w).map (fun x => x.2.1)
        then s2.get? j else none)
      = (List.range s2.length).filterMap
        (fun j => if j ∈ (scan s2 s1 w).map (fun x => x.1)
          then s2.get? j else none) := by
    apply List.filterMap_congr
    intro j _
    by_cases hj : j ∈ (scan s2 s1 w).map (fun x => x.1)
    · rw [if_pos ((mem_snd_iff s1 s2 w j).mpr hj), if_pos hj]
    · rw [if_neg (fun hc => hj ((mem_snd_iff s1 s2 w j).mp hc)),
        if_neg hj]
  rw [hcongr, List.range_eq_range']
  have hfacts := scanAux_fst s1 w s2 0 (List.replicate s1.length false)
  have hsorted : ((scan s2 s1 w).map (fun x => x.1)).Sorted (· < ·) := by
    unfold scan
    exact hfacts.2
  have hbounds : ∀ x ∈ (scan s2 s1 w).map (fun x => x.1),
      0 ≤ x ∧ x < 0 + s2.length := by
    intro x hx
    obtain ⟨y, hy, rfl⟩ := List.mem_map.mp hx
    have := (hfacts.1 y (by rw [scan] at hy; exact hy)).2.1
    simpa using this
  rw [select_sorted s2.get? s2.length 0 _ hsorted hbounds]
  rw [matchedLeft, List.filterMap_map]
  apply filterMap_all_some
  intro x hx
  have hchar := (hfacts.1 x (by rw [scan] at hx; exact hx)).2.2
  simpa using hchar

theorem filterMap_if_some_length (f : ℕ → Option Char) (C : ℕ → Bool) :
    ∀ (l : List ℕ), (∀ j ∈ l, C j = true → (f j).isSome) →
      (l.filterMap (fun j => if C j then f j else none)).length
        = (l.filter C).length := by
  intro l
  induction l with
  | nil => intro _; rfl
  | cons a t ih =>
    intro h
    rw [List.filterMap_cons, List.filter_cons]
    by_cases hC : C a = true
    · rw [if_pos hC, if_pos hC]
      obtain ⟨v, hv⟩ := Option.isSome_iff_exists.mp (h a (by simp) hC)
      rw [hv]
      simp only [List.length_cons]
      rw [ih (fun j hj hCj => h j (by simp [hj]) hCj)]
    · rw [if_neg hC, if_neg hC]
      simp only []
      exact ih (fun j hj hCj => h j (by simp [hj]) hCj)

theorem length_filter_range_mem (n : ℕ) (S : List ℕ) (hnd : S.Nodup)
    (hb : ∀ x ∈ S, x < n) :
    ((List.range n).filter (fun j => decide (j ∈ S))).length = S.length := by
  have h1 : ((List.range n).filter (fun j => decide (j ∈ S))).Nodup :=
    (List.nodup_range n).filter _
  have hmemiff : ∀ x,
      x ∈ (List.range n).filter (fun j => decide (j ∈ S)) ↔ x ∈ S := by
    intro x
    rw [List.mem_filter]
    constructor
    · rintro ⟨_, h⟩
      simpa using h
    · intro h
      exact ⟨List.mem_range.mpr (hb x h), by simpa⟩
  have h2 : ((List.range n).filter (fun j => decide (j ∈ S))).toFinset
      = S.toFinset := by
    ext x
    simp only [List.mem_toFinset]
    exact hmemiff x
  have h3 := List.toFinset_card_of_nodup h1
  have h4 := List.toFinset_card_of_nodup hnd
  rw [← h3, h2, h4]

theorem matchedRight_length (s1 s2 : List Char) (w : ℤ) :
    (matchedRight s2 (scan s1 s2 w)).length = (scan s1 s2 w).length := by
  rw [matchedRight_cond]
  have hspec := scanAux_snd_spec s2 w s1 0 (List.replicate s2.length false)
    (by simp)
  have hnd : ((scan s1 s2 w).map (fun x => x.2.1)).Nodup := by
    unfold scan
    exact hspec.2
  have hbd : ∀ x ∈ (scan s1 s2 w).map (fun x => x.2.1), x < s2.length := by
    intro x hx
    obtain ⟨y, hy, rfl⟩ := List.mem_map.mp hx
    exact (hspec.1 y (by rw [scan] at hy; exact hy)).1
  have hcongr : (List.range s2.length).filterMap
      (fun j => if j ∈ (scan s1 s2 w).map (fun x => x.2.1)
        then s2.get? j else none)
      = (List.range s2.length).filterMap
        (fun j => if decide (j ∈ (scan s1 s2 w).map (fun x => x.2.1))
          then s2.get? j else none) := by
    apply List.filterMap_congr
    intro j _
    simp only [decide_eq_true_eq]
  rw [hcongr]
  rw [filterMap_if_some_length s2.get? _ _ (by
    intro j hj _
    rw [List.get?_eq_get (List.mem_range.mp hj)]
    rfl)]
  rw [length_filter_range_mem s2.length _ hnd hbd, List.length_map]

theorem scan_length_symm (s1 s2 : List Char) (w : ℤ) :
    (scan s1 s2 w).length = (scan s2 s1 w).length := by
  have h1 := matchedRight_length s1 s2 w
  rw [matchedRight_eq s1 s2 w, matchedLeft, List.length_map] at h1
  exact h1.symm

theorem hamming_comm : ∀ (a b : List Char), hamming a b = hamming b a := by
  intro a
  induction a with
  | nil => intro b; cases b <;> rfl
  | cons x xs ih =>
    intro b
    cases b with
    | nil => rfl
    | cons y ys =>
      rw [hamming, hamming, ih ys]
      congr 1
      by_cases hxy : x = y
      · rw [if_pos hxy, if_pos hxy.symm]
      · rw [if_neg hxy, if_neg (Ne.symm hxy)]

theorem commonPrefixLen_comm : ∀ (a b : List Char),
    commonPrefixLen a b = commonPrefixLen b a := by
  intro a
  induction a with
  | nil => intro b; cases b <;> rfl
  | cons x xs ih =>
    intro b
    cases b with
    | nil => rfl
    | cons y ys =>
      rw [commonPrefixLen, commonPrefixLen, ih ys]
      by_cases hxy : x = y
      · rw [if_pos hxy, if_pos hxy.symm]
      · rw [if_neg hxy, if_neg (Ne.symm hxy)]

/-- C7: the similarity scorer is symmetric.  The greedy match assignment
decomposes into independent per-character class sweeps; each class sweep
equals a two-pointer walk over the ascending occurrence lists of that
character in either string, which is symmetric by construction.  Hence
the matched count, the two matched-character sequences (exchanged), and
the transposition count are all preserved when the arguments swap, and
the remaining formula is symmetric in the two lengths. -/
theorem claim_C7 (a b : List Char) : jaroWinkler a b = jaroWinkler b a := by
  by_cases h1 : a = b
  · rw [h1]
  simp only [jaroWinkler]
  rw [if_neg h1, if_neg (show ¬b = a from fun h => h1 h.symm)]
  by_cases h2 : a = [] ∨ b = []
  · rw [if_pos h2, if_pos (show b = [] ∨ a = [] from h2.symm)]
  · rw [if_neg h2, if_neg (show ¬(b = [] ∨ a = []) from fun h => h2 h.symm)]
    have hw : matchWindow b.length a.length = matchWindow a.length b.length := by
      rw [matchWindow, matchWindow, Nat.max_comm]
    rw [hw]
    have hm : (scan a b (matchWindow a.length b.length)).length
        = (scan b a (matchWindow a.length b.length)).length :=
      scan_length_symm a b (matchWindow a.length b.length)
    have hA2B1 : matchedRight b (scan a b (matchWindow a.length b.length))
        = matchedLeft (scan b a (matchWindow a.length b.length)) :=
      matchedRight_eq a b (matchWindow a.length b.length)
    have hB2A1 : matchedRight a (scan b a (matchWindow a.length b.length))
        = matchedLeft (scan a b (matchWindow a.length b.length)) :=
      matchedRight_eq b a (matchWindow a.length b.length)
    by_cases hm0 : (scan b a (matchWindow a.length b.length)).length = 0
    · rw [if_pos (by rw [hm]; exact hm0), if_pos hm0]
    · rw [if_neg (by rw [hm]; exact hm0), if_neg hm0]
      have ht : hamming
          (matchedLeft (scan a b (matchWindow a.length b.length)))
          (matchedRight b (scan a b (matchWindow a.length b.length)))
          = hamming
            (matchedLeft (scan b a (matchWindow a.length b.length)))
            (matchedRight a (scan b a (matchWindow a.length b.length))) := by
        rw [hA2B1, hB2A1, hamming_comm]
      rw [hm, ht, commonPrefixLen_comm (a.take 4) (b.take 4)]
      ring

theorem claim_C4_witness :
    compareNames "محمد".toList "محمود".toList = some
      ⟨⟨"محمد".toList, "محمد".toList, "م85300".toList,
          [("محمد".toList, "م85300".toList)]⟩,
        ⟨"محمود".toList, "محمود".toList, "م85130".toList,
          [("محمود".toList, "م85130".toList)]⟩,
        "م85300".toList == "م85130".toList,
        jaroWinkler "محمد".toList "محمود".toList,
        if "م85300".toList == "م85130".toList
        then max (jaroWinkler "محمد".toList "محمود".toList) (17 / 20)
        else jaroWinkler "محمد".toList "محمود".toList⟩ :=
  claim_C4 _ _ _ _ (by decide) (by decide) (by decide) (by decide)
